import Mathlib

/-!
# Overlap count sidecars of canu's overlap store files

A shallow embedding of `src/stores/ovStoreFile.H`: the count sidecar writer
`ovFileOCW`, the count sidecar reader `ovFileOCR`, and the inline methods of
`ovFile` (`fileTooBig`, `filePosition`, `recordSize`); and of the tokenizer
`splitToWords` of `src/AS_UTL/splitToWords.H`.

Conventions of the embedding.

* `uint32` and `uint64` values are natural numbers; every arithmetic step that
  can wrap in C++ is followed by an explicit `% 2^32` or `% 2^64`.
* A pointer that may be `NULL` is an `Option`; the array it points to is a
  `List Nat` whose length is the allocated length.
* `assert` is compiled in (canu builds without `NDEBUG`); a failed assertion, a
  read through `NULL`, an access outside an allocation and a short read are the
  four ways an operation can stop, collected in `Fault`.
* A file is the list of the 32-bit words it holds; the file system is a map from
  names to such lists. The machine is little-endian, as on every platform
  canu is built for, so the first four bytes of a `uint64` are its low half.
-/

namespace Canu

/-- Number of values of a `uint32`. -/
def UINT32_RANGE : Nat := 4294967296

/-- Number of values of a `uint64`. -/
def UINT64_RANGE : Nat := 18446744073709551616

/-- Value of `FILENAME_MAX` in `stdio.h` on Linux. -/
def FILENAME_MAX : Nat := 4096

/-- The ways in which an operation of the header stops the program (or leaves
defined behaviour) instead of returning. -/
inductive Fault where
  /-- An `assert(...)` was false: the process aborts. -/
  | assertFailed
  /-- A read or write through a `NULL` pointer. -/
  | nullDeref
  /-- An access outside the allocated array. -/
  | outOfBounds
  /-- `AS_UTL_safeRead` found fewer items than requested. -/
  | ioError
deriving DecidableEq, Repr

deriving instance DecidableEq for Except

/-- The part of `ovOverlap` (declared in `ovOverlap.H`) that this header reads:
the two read ids, both `uint32`, and the payload words `dat`. -/
structure ovOverlap where
  a_iid : Nat
  b_iid : Nat
  dat   : List Nat
deriving DecidableEq, Repr

/-- A file system: the words stored under each name, `none` where
`AS_UTL_fileExists` is false. -/
def FileSystem : Type := String → Option (List Nat)

/-- The file system without any file. -/
def FileSystem.empty : FileSystem := fun _ => none

/-- Modelled from the spec: `AS_UTL_openOutputFile`, `AS_UTL_safeWrite` and
`fclose` live in the file utilities, outside this header; together they
create (or replace) the file `name` with the words written, in order. -/
def FileSystem.write (fs : FileSystem) (name : String) (words : List Nat) : FileSystem :=
  fun n => if n = name then some words else fs n

/-- Modelled from the spec: `allocateArray(array, n, resizeArray_clearNew)` is
defined in the array utilities, outside this header; it allocates `n` elements
and clears them. -/
def allocateArray (n : Nat) : List Nat := List.replicate n 0

/-- The sidecar name, `snprintf(name, FILENAME_MAX, "%s.oc", pfx)`: at most
`FILENAME_MAX - 1` characters of the shard name followed by `.oc`. -/
def ocName (pfx : String) : String :=
  String.mk ((pfx ++ ".oc").toList.take (FILENAME_MAX - 1))

/-! ## The count sidecar writer, `ovFileOCW` (lines 72-139) -/

/-- State of an `ovFileOCW`: the 64-bit total, the 32-bit table length, the
table pointer and the name of the sidecar. -/
structure ovFileOCW where
  _nOlaps : Nat
  _oprMax : Nat
  _opr    : Option (List Nat)
  _name   : String
deriving DecidableEq, Repr

/-- The constructor `ovFileOCW(seq, pfx)` (lines 74-95); `numReads` is
`seq->sqStore_getNumReads()`, and `numReads + 1` is stored in a `uint32`. -/
def ovFileOCW.new (numReads : Nat) (pfx : Option String) : ovFileOCW :=
  match pfx with
  | none   => { _nOlaps := 0, _oprMax := 0, _opr := none, _name := "" }
  | some p =>
    let oprMax := (numReads + 1) % UINT32_RANGE
    { _nOlaps := 0, _oprMax := oprMax, _opr := some (allocateArray oprMax), _name := ocName p }

/-- One statement `_opr[i]++` on a `uint32` array: a fault outside the
allocation, else the entry is incremented modulo `2^32`. -/
def incrementEntry (opr : List Nat) (i : Nat) : Except Fault (List Nat) :=
  if h : i < opr.length then
    .ok (opr.set i ((opr[i] + 1) % UINT32_RANGE))
  else
    .error .outOfBounds

/-- The method `addOverlap` of the writer (lines 117-129). -/
def ovFileOCW.addOverlap (w : ovFileOCW) (overlap : ovOverlap) : Except Fault ovFileOCW :=
  let nOlaps := (w._nOlaps + 1) % UINT64_RANGE
  match w._opr with
  | none     => .ok { w with _nOlaps := nOlaps }
  | some opr =>
    if ¬ (overlap.a_iid < w._oprMax) then .error .assertFailed
    else if ¬ (overlap.b_iid < w._oprMax) then .error .assertFailed
    else
      match incrementEntry opr overlap.a_iid with
      | .error e => .error e
      | .ok opr1 =>
        match incrementEntry opr1 overlap.b_iid with
        | .error e => .error e
        | .ok opr2 => .ok { w with _nOlaps := nOlaps, _opr := some opr2 }

/-- The caller's loop: the overlaps are handed to `addOverlap` one by one, and
the first fault ends the run. -/
def ovFileOCW.addOverlaps (w : ovFileOCW) : List ovOverlap → Except Fault ovFileOCW
  | []      => .ok w
  | o :: os =>
    match w.addOverlap o with
    | .error e => .error e
    | .ok w1   => ovFileOCW.addOverlaps w1 os

/-- The accessor `uint32 numOverlaps(void)` of the writer (line 131): the
64-bit total converted to `uint32`. -/
def ovFileOCW.numOverlaps (w : ovFileOCW) : Nat := w._nOlaps % UINT32_RANGE

/-- The words the destructor hands to `AS_UTL_safeWrite` (lines 108-110): the
first four bytes of `_nOlaps`, then `_oprMax`, then `_oprMax` table entries. -/
def ovFileOCW.sidecarWords (w : ovFileOCW) (opr : List Nat) : List Nat :=
  [w._nOlaps % UINT32_RANGE, w._oprMax] ++ opr.take w._oprMax

/-- The destructor `~ovFileOCW()` (lines 97-115): nothing without a table,
else the sidecar is written. -/
def ovFileOCW.destructor (w : ovFileOCW) (fs : FileSystem) : Except Fault FileSystem :=
  match w._opr with
  | none     => .ok fs
  | some opr =>
    if w._oprMax ≤ opr.length then
      .ok (fs.write w._name (w.sidecarWords opr))
    else
      .error .outOfBounds

/-! ## The count sidecar reader, `ovFileOCR` (lines 144-197) -/

/-- State of an `ovFileOCR`. -/
structure ovFileOCR where
  _nOlaps : Nat
  _oprMax : Nat
  _opr    : Option (List Nat)
deriving DecidableEq, Repr

/-- The three `AS_UTL_safeRead` calls of the reader (lines 179-181) on the words
of the sidecar: one word into the low half of `_nOlaps` (whose high half is
zero), one word into `_oprMax`, then `_oprMax` words into the table allocated
as `opr`. Words that arrive past the allocation are an out-of-bounds write; a
file with fewer words than requested is a fatal read error. -/
def ovFileOCR.load (opr : List Nat) (words : List Nat) : Except Fault ovFileOCR :=
  match words with
  | []                => .error .ioError
  | [_]               => .error .ioError
  | total :: len :: rest =>
    if opr.length < min len rest.length then .error .outOfBounds
    else if rest.length < len then .error .ioError
    else .ok { _nOlaps := total, _oprMax := len, _opr := some (rest.take len ++ opr.drop len) }

/-- The constructor `ovFileOCR(seq, pfx)` (lines 146-184). -/
def ovFileOCR.new (numReads : Nat) (pfx : Option String) (fs : FileSystem) :
    Except Fault ovFileOCR :=
  match pfx with
  | none   => .ok { _nOlaps := 0, _oprMax := 0, _opr := none }
  | some p =>
    match fs (ocName p) with
    | none       => .ok { _nOlaps := 0, _oprMax := 0, _opr := none }
    | some words => ovFileOCR.load (allocateArray ((numReads + 1) % UINT32_RANGE)) words

/-- The accessor `uint32 numOverlaps(void)` of the reader (line 190). -/
def ovFileOCR.numOverlaps (r : ovFileOCR) : Nat := r._nOlaps % UINT32_RANGE

/-- The accessor `uint32 numOverlaps(uint32 readID)` of the reader (line 191):
`_opr[readID]`, without any check. -/
def ovFileOCR.numOverlaps_readID (r : ovFileOCR) (readID : Nat) : Except Fault Nat :=
  match r._opr with
  | none     => .error .nullDeref
  | some opr =>
    if h : readID < opr.length then .ok opr[readID] else .error .outOfBounds

/-! ## The file handle, `ovFile` (lines 203-273) -/

/-- The macro `OVFILE_MAX_OVERLAPS` (line 49), a `size_t`; `sizeofDAT` is
`sizeof(ovOverlapDAT)`, a type declared in `ovOverlap.H`. -/
def OVFILE_MAX_OVERLAPS (sizeofDAT : Nat) : Nat :=
  1024 * 1024 * 1024 / (sizeofDAT + 4)

/-- The fields of `ovFile` that the inline methods of the header use. -/
structure ovFile where
  _countsW  : Option ovFileOCW
  _countsR  : Option ovFileOCR
  _isOutput : Bool
  _isNormal : Bool
deriving DecidableEq, Repr

/-- The method `fileTooBig` (line 231): the writer's `uint32` total against the
`size_t` cap. -/
def ovFile.fileTooBig (f : ovFile) (sizeofDAT : Nat) : Except Fault Bool :=
  match f._countsW with
  | none   => .error .nullDeref
  | some w => .ok (decide (w.numOverlaps > OVFILE_MAX_OVERLAPS sizeofDAT))

/-- The method `filePosition` (line 232): the writer's `uint32` total, widened
to `uint64`. -/
def ovFile.filePosition (f : ovFile) : Except Fault Nat :=
  match f._countsW with
  | none   => .error .nullDeref
  | some w => .ok (w.numOverlaps % UINT64_RANGE)

/-! ## Quantities the properties are stated with -/

/-- Number of records of `os` in which `r` is an endpoint. -/
def recordsWith (r : Nat) (os : List ovOverlap) : Nat :=
  os.countP (fun o => decide (o.a_iid = r ∨ o.b_iid = r))

/-- Number of endpoints of the records of `os` that are `r`: a record whose two
ids are both `r` counts twice. -/
def endpointsAt (r : Nat) (os : List ovOverlap) : Nat :=
  os.countP (fun o => decide (o.a_iid = r)) + os.countP (fun o => decide (o.b_iid = r))

/-- A full run of a tracking writer: construction for `numReads` reads with the
shard name `pfx`, the overlaps `os`, then destruction; the result is the
`.oc` file the run leaves behind. -/
def writeSidecar (numReads : Nat) (pfx : String) (os : List ovOverlap) (fs : FileSystem) :
    Except Fault (Option (List Nat)) :=
  match (ovFileOCW.new numReads (some pfx)).addOverlaps os with
  | .error e => .error e
  | .ok w    =>
    match w.destructor fs with
    | .error e => .error e
    | .ok fs1  => .ok (fs1 (ocName pfx))

/-- Entry `r` of the table stored in a sidecar: the file holds the total, the
table length, then the table. -/
def sidecarEntry (words : List Nat) (r : Nat) : Option Nat := words[r + 2]?

/-- A full run of a tracking writer followed by the construction of a reader
for the same store and shard name. -/
def closeAndReopen (numReads : Nat) (pfx : String) (os : List ovOverlap) (fs : FileSystem) :
    Except Fault ovFileOCR :=
  match (ovFileOCW.new numReads (some pfx)).addOverlaps os with
  | .error e => .error e
  | .ok w    =>
    match w.destructor fs with
    | .error e => .error e
    | .ok fs1  => ovFileOCR.new numReads (some pfx) fs1

/-- The table of a tracking writer for `R` reads is in order: `R + 1` entries,
each a `uint32`, and `_oprMax` is that length. -/
def ovFileOCW.tableOK (R : Nat) (w : ovFileOCW) : Prop :=
  w._oprMax = R + 1 ∧
    ∃ t, w._opr = some t ∧ t.length = R + 1 ∧ ∀ r, t.getD r 0 < UINT32_RANGE

/-- The method `recordSize` of the handle (lines 241-243), a `uint64`;
`sizeofWORD` is `sizeof(ovOverlapWORD)` and `nWORDS` is `ovOverlapNWORDS`, both
declared in `ovOverlap.H`. -/
def ovFile.recordSize (f : ovFile) (sizeofWORD nWORDS : Nat) : Nat :=
  (4 * (if f._isNormal then 1 else 2) + sizeofWORD * nWORDS) % UINT64_RANGE

/-! ## The tokenizer, `splitToWords` (`src/AS_UTL/splitToWords.H`)

Characters are `Char`; a C string in memory is the list of its characters up
to, and without, the first NUL. A `char *` into `_chars` is the offset it
points at, `none` for `NULL`. An array that is `NULL` with capacity 0 is the
empty list. -/

/-- The two ways of splitting (lines 43-46). -/
inductive splitType where
  | splitWords
  | splitPaths
deriving DecidableEq, Repr

/-- The character that ends a C string. -/
def NUL : Char := Char.ofNat 0

/-- How a call ends: it returns, it stops at a fault, or it never returns. -/
inductive Outcome (α : Type) where
  | returns (a : α)
  | fault (e : Fault)
  | hangs
deriving DecidableEq, Repr

/-- State of a `splitToWords` (lines 154-160): `_words` holds `_wordsMax`
pointers of which the first `_wordsLen` are the words, `_chars` holds
`_charsMax` characters. -/
structure splitToWords where
  _wordsLen : Nat
  _wordsMax : Nat
  _words    : List (Option Nat)
  _charsLen : Nat
  _charsMax : Nat
  _chars    : List Char
deriving DecidableEq, Repr

/-- The method `isPath` (lines 69-71). -/
def splitToWords.isPath (c : Char) : Bool := c == '/'

/-- The method `isSpace` (lines 73-78). -/
def splitToWords.isSpace (c : Char) : Bool :=
  c == ' ' || c == '\t' || c == '\n' || c == '\r'

/-- The method `isSeparator` (lines 80-83). -/
def splitToWords.isSeparator (c : Char) (type : splitType) : Bool :=
  (type == splitType.splitWords && splitToWords.isSpace c) ||
    (type == splitType.splitPaths && splitToWords.isPath c)

/-- Modelled from the spec: `resizeArray(array, 0, arrayMax, newMax,
resizeArray_doNothing)` is defined in the array utilities, outside this header;
a growable array with separate capacity keeps the array when the capacity
suffices and else replaces it by one of capacity `newMax`, whose content is
not kept (here: cleared). The result is the array and its capacity. -/
def resizeArray {α : Type} (array : List α) (arrayMax newMax : Nat) (clear : α) :
    List α × Nat :=
  if newMax ≤ arrayMax then (array, arrayMax) else (List.replicate newMax clear, newMax)

/-- The first loop of `split` (lines 97-99) on the characters of `line` from the
current position on: it stops at the first NUL (the end of the list is the
terminating NUL) and returns `_charsLen` and `_wordsLen`. -/
def splitToWords.countLoop (type : splitType) : List Char → Nat → Nat → Nat × Nat
  | [], charsLen, wordsLen => (charsLen, wordsLen)
  | c :: cs, charsLen, wordsLen =>
    if c = NUL then (charsLen, wordsLen)
    else
      splitToWords.countLoop type cs (charsLen + 1)
        (if splitToWords.isSeparator c type then wordsLen + 1 else wordsLen)

/-- The second loop of `split` (lines 116-126) on the characters `line[ii]`,
`line[ii+1]`, ... below `_charsLen`: a separator is overwritten by NUL in
`_chars`, the first character after a separator (or at the start) is stored as
the next word. Stores outside the arrays are faults. -/
def splitToWords.markLoop (type : splitType) :
    List Char → Nat → Bool → splitToWords → Except Fault splitToWords
  | [], _, _, s => .ok s
  | c :: cs, ii, st, s =>
    if splitToWords.isSeparator c type then
      if ii < s._chars.length then
        splitToWords.markLoop type cs (ii + 1) true { s with _chars := s._chars.set ii NUL }
      else .error .outOfBounds
    else if st then
      if s._wordsLen < s._words.length then
        splitToWords.markLoop type cs (ii + 1) false
          { s with _words := s._words.set s._wordsLen (some ii),
                   _wordsLen := (s._wordsLen + 1) % UINT32_RANGE }
      else .error .outOfBounds
    else
      splitToWords.markLoop type cs (ii + 1) st s

/-- The method `split` (lines 86-127). `line` is `none` for `NULL`, else the
characters in memory from `line` on. A line without NUL among its first `2^32`
characters keeps the `uint32` index of the first loop running for ever. -/
def splitToWords.split (s : splitToWords) (line : Option (List Char)) (type : splitType) :
    Outcome splitToWords :=
  match line with
  | none     => .returns { s with _wordsLen := 0, _charsLen := 0 }
  | some mem =>
    let counts := splitToWords.countLoop type mem 0 0
    let charsLen := counts.1
    let wordsLen := counts.2
    if UINT32_RANGE ≤ charsLen then .hangs
    else
      let wordsNeed := (wordsLen + 1) % UINT32_RANGE
      let charsNeed := (charsLen + 1) % UINT32_RANGE
      let words := resizeArray s._words s._wordsMax wordsNeed none
      let chars := resizeArray s._chars s._charsMax charsNeed NUL
      let words1 := List.replicate wordsNeed none ++ words.1.drop wordsNeed
      let chars1 := (mem.take charsLen ++ [NUL]).take charsNeed ++ chars.1.drop charsNeed
      match splitToWords.markLoop type (mem.take charsLen) 0 true
          { _wordsLen := 0, _wordsMax := words.2, _words := words1,
            _charsLen := charsLen, _charsMax := chars.2, _chars := chars1 } with
      | .error e => .fault e
      | .ok s1   => .returns s1

/-- The constructor `splitToWords(string, type)` (lines 50-61). -/
def splitToWords.new (string : Option (List Char)) (type : splitType) : Outcome splitToWords :=
  let s : splitToWords :=
    { _wordsLen := 0, _wordsMax := 0, _words := [], _charsLen := 0, _charsMax := 0, _chars := [] }
  match string with
  | none   => .returns s
  | some l => s.split (some l) type

/-- The method `numWords` (line 129). -/
def splitToWords.numWords (s : splitToWords) : Nat := s._wordsLen

/-- The method `first` (line 133); `i` is a `uint32`. -/
def splitToWords.first (s : splitToWords) (i : Nat) : Except Fault (Option Nat) :=
  if s._wordsLen ≤ i then .ok none
  else if h : i < s._words.length then .ok s._words[i]
  else .error .outOfBounds

/-- The loop of `shift` (lines 138-139), `count` iterations from `ii` on:
`swap(_words[ii-1], _words[ii])`. -/
def splitToWords.shiftLoop : Nat → Nat → List (Option Nat) → Except Fault (List (Option Nat))
  | 0, _, words => .ok words
  | count + 1, ii, words =>
    if h : ii < words.length then
      have h1 : ii - 1 < words.length := by omega
      splitToWords.shiftLoop count (ii + 1) ((words.set (ii - 1) words[ii]).set ii words[ii - 1])
    else .error .outOfBounds

/-- The method `shift` (lines 134-142): the returned pointer and the new
state. -/
def splitToWords.shift (s : splitToWords) : Except Fault (Option Nat × splitToWords) :=
  if s._wordsLen = 0 then .ok (none, s)
  else
    match splitToWords.shiftLoop (s._wordsLen - 1) 1 s._words with
    | .error e  => .error e
    | .ok words =>
      if h : s._wordsLen - 1 < words.length then
        .ok (words[s._wordsLen - 1], { s with _words := words, _wordsLen := s._wordsLen - 1 })
      else .error .outOfBounds

/-- The method `last` (line 144); the index `_wordsLen - i - 1` is computed in
`uint32`. -/
def splitToWords.last (s : splitToWords) (i : Nat) : Except Fault (Option Nat) :=
  if s._wordsLen = 0 then .ok none
  else
    let idx := (s._wordsLen + UINT32_RANGE - 1 - i % UINT32_RANGE) % UINT32_RANGE
    if h : idx < s._words.length then .ok s._words[idx] else .error .outOfBounds

/-- The method `pop` (line 145): the returned pointer and the new state. -/
def splitToWords.pop (s : splitToWords) : Except Fault (Option Nat × splitToWords) :=
  if s._wordsLen = 0 then .ok (none, s)
  else if h : s._wordsLen - 1 < s._words.length then
    .ok (s._words[s._wordsLen - 1], { s with _wordsLen := s._wordsLen - 1 })
  else .error .outOfBounds

/-- The C string a word pointer points at: the characters of `_chars` from the
offset up to the next NUL. -/
def splitToWords.wordAt (s : splitToWords) (off : Nat) : List Char :=
  (s._chars.drop off).takeWhile (fun c => c != NUL)

/-- The characters of a C string in memory: those before the first NUL. -/
def cstring (mem : List Char) : List Char := mem.takeWhile (fun c => c != NUL)

/-- The maximal non-empty runs of characters that are not separators, in
order. -/
def maximalRuns (sep : Char → Bool) : List Char → List (List Char)
  | []      => []
  | c :: cs =>
    if sep c then maximalRuns sep cs
    else (c :: cs.takeWhile (fun d => !sep d)) :: maximalRuns sep (cs.dropWhile (fun d => !sep d))
termination_by l => l.length
decreasing_by
  · simp_wf
  · simp_wf
    exact Nat.lt_succ_of_le (List.dropWhile_sublist _).length_le

/-- Number of separators among the characters. -/
def separatorCount (type : splitType) (cs : List Char) : Nat :=
  cs.countP (fun c => splitToWords.isSeparator c type)

/-- The offsets at which the second loop of `split` stores a word, for the
characters `cs` read from index `ii` on. -/
def wordStarts (type : splitType) : List Char → Nat → Bool → List Nat
  | [], _, _ => []
  | c :: cs, ii, st =>
    if splitToWords.isSeparator c type then wordStarts type cs (ii + 1) true
    else if st then ii :: wordStarts type cs (ii + 1) false
    else wordStarts type cs (ii + 1) false

/-- The characters with every separator replaced by NUL. -/
def nulOut (type : splitType) (cs : List Char) : List Char :=
  cs.map (fun c => if splitToWords.isSeparator c type then NUL else c)

/-- The separators by name: space, tab, newline and carriage return when
splitting words, the slash when splitting paths. -/
def listedSeparator (type : splitType) (c : Char) : Bool :=
  match type with
  | splitType.splitWords => decide (c = ' ' ∨ c = '\t' ∨ c = '\n' ∨ c = '\r')
  | splitType.splitPaths => decide (c = '/')

/-- The arrays of a tokenizer have the capacities the state records. -/
def splitToWords.wellFormed (s : splitToWords) : Prop :=
  s._words.length = s._wordsMax ∧ s._chars.length = s._charsMax

/-! ## Auxiliary facts about the writer -/

theorem incrementEntry_inside (opr : List Nat) (i : Nat) (h : i < opr.length) :
    ∃ opr1, incrementEntry opr i = .ok opr1 ∧ opr1.length = opr.length ∧
      ∀ r, opr1.getD r 0 = if r = i then (opr.getD r 0 + 1) % UINT32_RANGE else opr.getD r 0 := by
  refine ⟨opr.set i ((opr[i] + 1) % UINT32_RANGE), ?_, by simp, ?_⟩
  · simp [incrementEntry, h]
  · intro r
    by_cases hr : r = i
    · subst hr
      simp [List.getD_eq_getElem?_getD, List.getElem?_set, h]
    · have hne : i ≠ r := fun e => hr e.symm
      simp [List.getD_eq_getElem?_getD, List.getElem?_set, hr, hne]

theorem getD_replicate_zero (n r : Nat) : (List.replicate n 0).getD r 0 = 0 := by
  simp only [List.getD_eq_getElem?_getD, List.getElem?_replicate]
  split <;> rfl

theorem endpointsAt_cons (r : Nat) (o : ovOverlap) (os : List ovOverlap) :
    endpointsAt r (o :: os) =
      (if o.a_iid = r then 1 else 0) + (if o.b_iid = r then 1 else 0) + endpointsAt r os := by
  simp only [endpointsAt, List.countP_cons, decide_eq_true_eq]
  omega

/-- One accepted `addOverlap` on a writer with a table of `R + 1` entries. -/
theorem addOverlap_tracking (R : Nat) (w : ovFileOCW) (t : List Nat) (o : ovOverlap)
    (hmax : w._oprMax = R + 1) (hopr : w._opr = some t) (hlen : t.length = R + 1)
    (hbd : ∀ r, t.getD r 0 < UINT32_RANGE) (ha : o.a_iid ≤ R) (hb : o.b_iid ≤ R) :
    ∃ t1, w.addOverlap o =
        .ok { w with _nOlaps := (w._nOlaps + 1) % UINT64_RANGE, _opr := some t1 } ∧
      t1.length = R + 1 ∧ (∀ r, t1.getD r 0 < UINT32_RANGE) ∧
      ∀ r, t1.getD r 0 =
        (t.getD r 0 + ((if o.a_iid = r then 1 else 0) + (if o.b_iid = r then 1 else 0)))
          % UINT32_RANGE := by
  obtain ⟨ta, hta, hla, hva⟩ := incrementEntry_inside t o.a_iid (by omega)
  obtain ⟨tb, htb, hlb, hvb⟩ := incrementEntry_inside ta o.b_iid (by omega)
  have hpos : 0 < UINT32_RANGE := by decide
  have hval : ∀ r, tb.getD r 0 =
      (t.getD r 0 + ((if o.a_iid = r then 1 else 0) + (if o.b_iid = r then 1 else 0)))
        % UINT32_RANGE := by
    intro r
    rw [hvb r, hva r]
    have := hbd r
    unfold UINT32_RANGE at *
    split_ifs <;> omega
  refine ⟨tb, ?_, by omega, ?_, hval⟩
  · have h1 : o.a_iid < R + 1 := by omega
    have h2 : o.b_iid < R + 1 := by omega
    simp [ovFileOCW.addOverlap, hopr, hmax, h1, h2, hta, htb]
  · intro r
    rw [hval r]
    exact Nat.mod_lt _ hpos

/-- A run of accepted overlaps on a writer with a table of `R + 1` entries: the
total grows by the number of overlaps, every entry by the number of endpoints
that name it. -/
theorem addOverlaps_tracking (R : Nat) (os : List ovOverlap) :
    ∀ (w : ovFileOCW) (t : List Nat), w._oprMax = R + 1 → w._opr = some t →
      t.length = R + 1 → (∀ r, t.getD r 0 < UINT32_RANGE) → w._nOlaps < UINT64_RANGE →
      (∀ o ∈ os, o.a_iid ≤ R ∧ o.b_iid ≤ R) →
      ∃ t1, w.addOverlaps os =
          .ok { w with _nOlaps := (w._nOlaps + os.length) % UINT64_RANGE, _opr := some t1 } ∧
        t1.length = R + 1 ∧
        ∀ r, t1.getD r 0 = (t.getD r 0 + endpointsAt r os) % UINT32_RANGE := by
  induction os with
  | nil =>
    intro w t _ hopr hlen hbd hn _
    refine ⟨t, ?_, hlen, ?_⟩
    · cases w
      simp only [ovFileOCW.addOverlaps, List.length_nil, Nat.add_zero] at *
      rw [Nat.mod_eq_of_lt hn, hopr]
    · intro r
      have := hbd r
      simp only [endpointsAt, List.countP_nil, Nat.add_zero]
      rw [Nat.mod_eq_of_lt this]
  | cons o os ih =>
    intro w t hmax hopr hlen hbd hn hin
    have ho := hin o (List.mem_cons_self o os)
    obtain ⟨t1, hstep, hl1, hb1, hv1⟩ := addOverlap_tracking R w t o hmax hopr hlen hbd ho.1 ho.2
    have hn1 : (w._nOlaps + 1) % UINT64_RANGE < UINT64_RANGE := Nat.mod_lt _ (by decide)
    obtain ⟨t2, hrun, hl2, hv2⟩ :=
      ih { w with _nOlaps := (w._nOlaps + 1) % UINT64_RANGE, _opr := some t1 } t1 hmax rfl hl1 hb1
        hn1 (fun x hx => hin x (List.mem_cons_of_mem o hx))
    refine ⟨t2, ?_, hl2, ?_⟩
    · simp only [ovFileOCW.addOverlaps, hstep, hrun, List.length_cons]
      have e : ((w._nOlaps + 1) % UINT64_RANGE + os.length) % UINT64_RANGE =
          (w._nOlaps + (os.length + 1)) % UINT64_RANGE := by
        unfold UINT64_RANGE
        omega
      rw [e]
    · intro r
      rw [hv2 r, hv1 r, endpointsAt_cons]
      unfold UINT32_RANGE
      omega

/-- A run on a writer without a table never stops and only moves the total. -/
theorem addOverlaps_untracked (os : List ovOverlap) :
    ∀ (w : ovFileOCW), w._opr = none → w._nOlaps < UINT64_RANGE →
      w.addOverlaps os = .ok { w with _nOlaps := (w._nOlaps + os.length) % UINT64_RANGE } := by
  induction os with
  | nil =>
    intro w _ hn
    cases w
    simp only [ovFileOCW.addOverlaps, List.length_nil, Nat.add_zero] at *
    rw [Nat.mod_eq_of_lt hn]
  | cons o os ih =>
    intro w hopr hn
    have hstep : w.addOverlap o = .ok { w with _nOlaps := (w._nOlaps + 1) % UINT64_RANGE } := by
      simp [ovFileOCW.addOverlap, hopr]
    have hn1 : (w._nOlaps + 1) % UINT64_RANGE < UINT64_RANGE := Nat.mod_lt _ (by decide)
    have hrun := ih { w with _nOlaps := (w._nOlaps + 1) % UINT64_RANGE } hopr hn1
    simp only [ovFileOCW.addOverlaps, hstep, hrun, List.length_cons]
    have e : ((w._nOlaps + 1) % UINT64_RANGE + os.length) % UINT64_RANGE =
        (w._nOlaps + (os.length + 1)) % UINT64_RANGE := by
      unfold UINT64_RANGE
      omega
    rw [e]

/-- The tracking writer as constructed, when `R + 1` fits a `uint32`. -/
theorem new_tracking (R : Nat) (hR : R + 1 < UINT32_RANGE) (p : String) :
    ovFileOCW.new R (some p) =
      { _nOlaps := 0, _oprMax := R + 1, _opr := some (List.replicate (R + 1) 0),
        _name := ocName p } := by
  simp only [ovFileOCW.new, allocateArray, Nat.mod_eq_of_lt hR]

/-- The state of a tracking writer for `R` reads after the in-range overlaps
`os`. -/
theorem tracking_run (R : Nat) (hR : R + 1 < UINT32_RANGE) (p : String) (os : List ovOverlap)
    (hin : ∀ o ∈ os, o.a_iid ≤ R ∧ o.b_iid ≤ R) :
    ∃ t, (ovFileOCW.new R (some p)).addOverlaps os =
        .ok { _nOlaps := os.length % UINT64_RANGE, _oprMax := R + 1, _opr := some t,
              _name := ocName p } ∧
      t.length = R + 1 ∧ ∀ r, t.getD r 0 = endpointsAt r os % UINT32_RANGE := by
  rw [new_tracking R hR p]
  obtain ⟨t, hrun, hl, hv⟩ := addOverlaps_tracking R os
    { _nOlaps := 0, _oprMax := R + 1, _opr := some (List.replicate (R + 1) 0), _name := ocName p }
    (List.replicate (R + 1) 0) rfl rfl (by simp)
    (by intro r; rw [getD_replicate_zero]; decide) (show 0 < UINT64_RANGE by decide) hin
  refine ⟨t, ?_, hl, ?_⟩
  · rw [hrun]
    simp
  · intro r
    rw [hv r, getD_replicate_zero, Nat.zero_add]

/-- What the destructor of a writer with a full table leaves in the file
system. -/
theorem destructor_tracking (n R : Nat) (t : List Nat) (name : String) (fs : FileSystem)
    (hl : t.length = R + 1) :
    ovFileOCW.destructor { _nOlaps := n, _oprMax := R + 1, _opr := some t, _name := name } fs =
      .ok (fs.write name ([n % UINT32_RANGE, R + 1] ++ t)) := by
  have h : R + 1 ≤ t.length := by omega
  have ht : List.take (R + 1) t = t := by rw [← hl]; exact List.take_length t
  simp only [ovFileOCW.destructor, ovFileOCW.sidecarWords, h, if_true, ht]

theorem write_same (fs : FileSystem) (name : String) (words : List Nat) :
    (fs.write name words) name = some words := by
  simp [FileSystem.write]

/-- The sidecar left by a full run of a tracking writer. -/
theorem writeSidecar_eq (R : Nat) (hR : R + 1 < UINT32_RANGE) (p : String)
    (os : List ovOverlap) (fs : FileSystem) (hin : ∀ o ∈ os, o.a_iid ≤ R ∧ o.b_iid ≤ R) :
    ∃ t, writeSidecar R p os fs =
        .ok (some ([os.length % UINT64_RANGE % UINT32_RANGE, R + 1] ++ t)) ∧
      t.length = R + 1 ∧ ∀ r, t.getD r 0 = endpointsAt r os % UINT32_RANGE := by
  obtain ⟨t, hrun, hl, hv⟩ := tracking_run R hR p os hin
  refine ⟨t, ?_, hl, hv⟩
  simp only [writeSidecar, hrun, destructor_tracking _ R t _ fs hl, write_same]

theorem sidecarEntry_table (a b : Nat) (t : List Nat) (r : Nat) (hr : r < t.length) :
    sidecarEntry ([a, b] ++ t) r = some (t.getD r 0) := by
  simp [sidecarEntry, List.getD_eq_getElem?_getD, List.getElem?_eq_getElem hr]

/-- Without a record whose two ids are both `r`, the endpoints that are `r` are
as many as the records with `r` as an endpoint. -/
theorem endpointsAt_eq_recordsWith (r : Nat) (os : List ovOverlap)
    (h : ∀ o ∈ os, ¬ (o.a_iid = r ∧ o.b_iid = r)) : endpointsAt r os = recordsWith r os := by
  induction os with
  | nil => simp [endpointsAt, recordsWith]
  | cons o os ih =>
    have ho := h o (List.mem_cons_self o os)
    have ih1 := ih (fun x hx => h x (List.mem_cons_of_mem o hx))
    rw [endpointsAt_cons, ih1]
    simp only [recordsWith, List.countP_cons, decide_eq_true_eq]
    by_cases h1 : o.a_iid = r <;> by_cases h2 : o.b_iid = r <;> simp [h1, h2] at ho ⊢ <;> omega

/-- An id above `R` stops `addOverlap` at one of its two assertions. -/
theorem addOverlap_out_of_range (R : Nat) (w : ovFileOCW) (t : List Nat) (o : ovOverlap)
    (hmax : w._oprMax = R + 1) (hopr : w._opr = some t) (h : R < o.a_iid ∨ R < o.b_iid) :
    w.addOverlap o = .error .assertFailed := by
  by_cases ha : o.a_iid < R + 1
  · have hb : ¬ o.b_iid < R + 1 := by omega
    simp [ovFileOCW.addOverlap, hopr, hmax, ha, hb]
  · simp [ovFileOCW.addOverlap, hopr, hmax, ha]

theorem new_tableOK (R : Nat) (hR : R + 1 < UINT32_RANGE) (p : String) :
    (ovFileOCW.new R (some p)).tableOK R := by
  rw [new_tracking R hR p]
  refine ⟨rfl, _, rfl, by simp, ?_⟩
  intro r
  rw [getD_replicate_zero]
  decide

theorem addOverlap_tableOK (R : Nat) (w w1 : ovFileOCW) (o : ovOverlap) (hw : w.tableOK R)
    (h : w.addOverlap o = .ok w1) : w1.tableOK R := by
  obtain ⟨hmax, t, hopr, hlen, hbd⟩ := hw
  by_cases hin : o.a_iid ≤ R ∧ o.b_iid ≤ R
  · obtain ⟨t1, hstep, hl1, hb1, _⟩ := addOverlap_tracking R w t o hmax hopr hlen hbd hin.1 hin.2
    rw [hstep] at h
    cases h
    exact ⟨hmax, t1, rfl, hl1, hb1⟩
  · have hout : R < o.a_iid ∨ R < o.b_iid := by omega
    rw [addOverlap_out_of_range R w t o hmax hopr hout] at h
    cases h

theorem addOverlaps_tableOK (R : Nat) (os : List ovOverlap) :
    ∀ (w w1 : ovFileOCW), w.tableOK R → w.addOverlaps os = .ok w1 → w1.tableOK R := by
  induction os with
  | nil =>
    intro w w1 hw h
    simp only [ovFileOCW.addOverlaps] at h
    cases h
    exact hw
  | cons o os ih =>
    intro w w1 hw h
    simp only [ovFileOCW.addOverlaps] at h
    cases hstep : w.addOverlap o with
    | error e => rw [hstep] at h; cases h
    | ok w2 =>
      rw [hstep] at h
      exact ih w2 w1 (addOverlap_tableOK R w w2 o hw hstep) h

/-- A writer built without a shard name never gets a table. -/
theorem addOverlaps_new_untracked (R : Nat) (os : List ovOverlap) (w : ovFileOCW)
    (h : (ovFileOCW.new R none).addOverlaps os = .ok w) : w._opr = none := by
  rw [addOverlaps_untracked os (ovFileOCW.new R none) rfl (show 0 < UINT64_RANGE by decide)] at h
  cases h
  rfl

/-! ## Auxiliary facts about the reader -/

/-- Loading a sidecar whose table has exactly the allocated length. -/
theorem load_full (R total : Nat) (t : List Nat) (hl : t.length = R + 1) :
    ovFileOCR.load (allocateArray (R + 1)) ([total, R + 1] ++ t) =
      .ok { _nOlaps := total, _oprMax := R + 1, _opr := some t } := by
  have ht : List.take (R + 1) t = t := by rw [← hl]; exact List.take_length t
  have hd : List.drop (R + 1) (List.replicate (R + 1) 0) = [] := by simp
  simp only [ovFileOCR.load, allocateArray, List.cons_append, List.nil_append,
    List.length_replicate, hl, Nat.min_self, Nat.lt_irrefl, if_false, ht, hd, List.append_nil]

/-- Closing a tracking writer and building a reader on the same shard name. -/
theorem closeAndReopen_eq (R : Nat) (hR : R + 1 < UINT32_RANGE) (p : String)
    (os : List ovOverlap) (fs : FileSystem) (hin : ∀ o ∈ os, o.a_iid ≤ R ∧ o.b_iid ≤ R) :
    ∃ t, (ovFileOCW.new R (some p)).addOverlaps os =
        .ok { _nOlaps := os.length % UINT64_RANGE, _oprMax := R + 1, _opr := some t,
              _name := ocName p } ∧
      closeAndReopen R p os fs =
        .ok { _nOlaps := os.length % UINT64_RANGE % UINT32_RANGE, _oprMax := R + 1,
              _opr := some t } ∧
      t.length = R + 1 ∧ ∀ r, t.getD r 0 = endpointsAt r os % UINT32_RANGE := by
  obtain ⟨t, hrun, hl, hv⟩ := tracking_run R hR p os hin
  refine ⟨t, hrun, ?_, hl, hv⟩
  simp only [closeAndReopen, hrun, destructor_tracking _ R t _ fs hl, ovFileOCR.new, write_same,
    Nat.mod_eq_of_lt hR, load_full R _ t hl]

theorem numOverlaps_readID_inside (n m : Nat) (t : List Nat) (r : Nat) (hr : r < t.length) :
    ovFileOCR.numOverlaps_readID { _nOlaps := n, _oprMax := m, _opr := some t } r =
      .ok (t.getD r 0) := by
  simp [ovFileOCR.numOverlaps_readID, hr, List.getD_eq_getElem?_getD, List.getElem?_eq_getElem hr]

/-! ## The properties -/

/-- C1, as stated, fails: a tracking writer for 1 read that receives the single
record (1,1) persists table[1] = 2, although read 1 is an endpoint of one
record only. -/
theorem C1_self_overlap_counts_twice :
    writeSidecar 1 "s" [⟨1, 1, []⟩] FileSystem.empty = .ok (some [1, 2, 0, 2]) ∧
      sidecarEntry [1, 2, 0, 2] 1 = some 2 ∧ recordsWith 1 [⟨1, 1, []⟩] = 1 := by
  decide

/-- C1, amended: for a read count `R` with `R + 1` below `2^32` and records
whose ids are all at most `R`, the run of a tracking writer ends with a sidecar
in which, for every `r ≤ R`, table[r] is the number of record endpoints equal to
`r` (a record with both ids `r` counts twice), modulo `2^32`; that is the number
of records having `r` as an endpoint whenever no record has both ids equal to
`r` and that number is below `2^32`. -/
theorem C1_table_counts_endpoints (R : Nat) (hR : R + 1 < UINT32_RANGE) (p : String)
    (fs : FileSystem) (os : List ovOverlap) (hin : ∀ o ∈ os, o.a_iid ≤ R ∧ o.b_iid ≤ R) :
    ∃ words, writeSidecar R p os fs = .ok (some words) ∧
      ∀ r, r ≤ R →
        sidecarEntry words r = some (endpointsAt r os % UINT32_RANGE) ∧
        ((∀ o ∈ os, ¬ (o.a_iid = r ∧ o.b_iid = r)) → recordsWith r os < UINT32_RANGE →
          sidecarEntry words r = some (recordsWith r os)) := by
  obtain ⟨t, hrun, hl, hv⟩ := writeSidecar_eq R hR p os fs hin
  refine ⟨_, hrun, ?_⟩
  intro r hr
  have he : sidecarEntry ([os.length % UINT64_RANGE % UINT32_RANGE, R + 1] ++ t) r =
      some (endpointsAt r os % UINT32_RANGE) := by
    rw [sidecarEntry_table _ _ t r (by omega), hv r]
  refine ⟨he, ?_⟩
  intro hself hlt
  rw [he, endpointsAt_eq_recordsWith r os hself, Nat.mod_eq_of_lt hlt]

/-- Instance of C1 (amended): 5 reads and the records (1,2), (1,3), (3,4). -/
theorem C1_table_counts_endpoints_witness :
    ∃ words, writeSidecar 5 "store.0.0" [⟨1, 2, []⟩, ⟨1, 3, []⟩, ⟨3, 4, []⟩] FileSystem.empty =
        .ok (some words) ∧
      ∀ r, r ≤ 5 →
        sidecarEntry words r =
          some (endpointsAt r [⟨1, 2, []⟩, ⟨1, 3, []⟩, ⟨3, 4, []⟩] % UINT32_RANGE) ∧
        ((∀ o ∈ [(⟨1, 2, []⟩ : ovOverlap), ⟨1, 3, []⟩, ⟨3, 4, []⟩],
            ¬ (o.a_iid = r ∧ o.b_iid = r)) →
          recordsWith r [⟨1, 2, []⟩, ⟨1, 3, []⟩, ⟨3, 4, []⟩] < UINT32_RANGE →
          sidecarEntry words r = some (recordsWith r [⟨1, 2, []⟩, ⟨1, 3, []⟩, ⟨3, 4, []⟩])) :=
  C1_table_counts_endpoints 5 (by decide) "store.0.0" FileSystem.empty
    [⟨1, 2, []⟩, ⟨1, 3, []⟩, ⟨3, 4, []⟩] (by decide)

/-- C2 at its failing input: after 4294967296 accepted overlaps (1,2) on a
tracking writer for 5 reads, the first word of the sidecar, the persisted
total, is 0 and not 4294967296. -/
theorem C2_persisted_total_wraps :
    ∃ t, writeSidecar 5 "store.0.0" (List.replicate 4294967296 ⟨1, 2, []⟩) FileSystem.empty =
      .ok (some (0 :: 6 :: t)) := by
  obtain ⟨t, hrun, _, _⟩ := writeSidecar_eq 5 (by decide) "store.0.0"
    (List.replicate 4294967296 ⟨1, 2, []⟩) FileSystem.empty
    (by intro o ho; rw [List.eq_of_mem_replicate ho]; decide)
  refine ⟨t, ?_⟩
  rw [hrun, List.length_replicate]
  rfl

/-- C3, as stated, fails at the read count 4294967295: `numReads + 1` wraps to 0
in the `uint32` `_oprMax`, the tracking writer has an empty table and aborts on
the in-range overlap (0,0); closed without overlaps it persists the words 0, 0,
and the reader built on them has no entry to report for read 0. -/
theorem C3_round_trip_fails_at_wrapping_read_count :
    (ovFileOCW.new 4294967295 (some "s"))._opr = some [] ∧
      (ovFileOCW.new 4294967295 (some "s")).addOverlaps [⟨0, 0, []⟩] = .error .assertFailed ∧
      closeAndReopen 4294967295 "s" [] FileSystem.empty =
        .ok { _nOlaps := 0, _oprMax := 0, _opr := some [] } ∧
      ovFileOCR.numOverlaps_readID { _nOlaps := 0, _oprMax := 0, _opr := some [] } 0 =
        .error .outOfBounds := by
  decide

/-- C3, amended: for a read count `R` with `R + 1` below `2^32` and in-range
overlaps `os`,
the run of a tracking writer returns a writer `w`, and the reader built for the
same `R` on the sidecar that the destructor of `w` persisted reports the same
total as `w.numOverlaps` and, for every `r ≤ R`, the entry `r` of the table
of `w`. -/
theorem C3_sidecar_round_trip (R : Nat) (hR : R + 1 < UINT32_RANGE) (p : String)
    (fs : FileSystem) (os : List ovOverlap) (hin : ∀ o ∈ os, o.a_iid ≤ R ∧ o.b_iid ≤ R) :
    ∃ w rd t, (ovFileOCW.new R (some p)).addOverlaps os = .ok w ∧
      closeAndReopen R p os fs = .ok rd ∧
      rd.numOverlaps = w.numOverlaps ∧
      w._opr = some t ∧
      ∀ r, r ≤ R → ∃ v, t[r]? = some v ∧ rd.numOverlaps_readID r = .ok v := by
  obtain ⟨t, hw, hrd, hl, _⟩ := closeAndReopen_eq R hR p os fs hin
  refine ⟨_, _, t, hw, hrd, ?_, rfl, ?_⟩
  · simp only [ovFileOCR.numOverlaps, ovFileOCW.numOverlaps, Nat.mod_mod]
  · intro r hr
    have hlt : r < t.length := by omega
    refine ⟨t.getD r 0, ?_, numOverlaps_readID_inside _ _ t r hlt⟩
    simp [List.getD_eq_getElem?_getD, List.getElem?_eq_getElem hlt]

/-- Instance of C3 (amended): 5 reads and the records (1,2), (1,3), (3,4). -/
theorem C3_sidecar_round_trip_witness :
    ∃ w rd t, (ovFileOCW.new 5 (some "store.0.0")).addOverlaps
          [⟨1, 2, []⟩, ⟨1, 3, []⟩, ⟨3, 4, []⟩] = .ok w ∧
      closeAndReopen 5 "store.0.0" [⟨1, 2, []⟩, ⟨1, 3, []⟩, ⟨3, 4, []⟩] FileSystem.empty =
        .ok rd ∧
      rd.numOverlaps = w.numOverlaps ∧
      w._opr = some t ∧
      ∀ r, r ≤ 5 → ∃ v, t[r]? = some v ∧ rd.numOverlaps_readID r = .ok v :=
  C3_sidecar_round_trip 5 (by decide) "store.0.0" FileSystem.empty
    [⟨1, 2, []⟩, ⟨1, 3, []⟩, ⟨3, 4, []⟩] (by decide)

/-- C4: whatever the file system held before, a tracking writer for 5 reads
that receives (1,2), (1,3), (3,4) and is closed leaves a sidecar from which a
reader for 5 reads reports a total of 3 and the per-read counts 2, 1, 2, 1, 0
for the reads 1, 2, 3, 4, 5. -/
theorem C4_end_to_end_scenario (fs : FileSystem) :
    ∃ rd, closeAndReopen 5 "store.0.0" [⟨1, 2, []⟩, ⟨1, 3, []⟩, ⟨3, 4, []⟩] fs = .ok rd ∧
      rd.numOverlaps = 3 ∧
      rd.numOverlaps_readID 1 = .ok 2 ∧
      rd.numOverlaps_readID 3 = .ok 2 ∧
      rd.numOverlaps_readID 4 = .ok 1 ∧
      rd.numOverlaps_readID 2 = .ok 1 ∧
      rd.numOverlaps_readID 5 = .ok 0 :=
  ⟨{ _nOlaps := 3, _oprMax := 6, _opr := some [0, 2, 1, 2, 1, 0] }, rfl, rfl, rfl, rfl, rfl, rfl,
    rfl⟩

/-- C5, as stated, fails at the read count 4294967295: `numReads + 1` wraps to 0
in the `uint32` `_oprMax`, so the tracking writer destroyed without overlaps
persists the words 0, 0: the table length is 0, not `R + 1`, and no entry
follows. -/
theorem C5_zero_overlap_sidecar_at_wrapping_read_count :
    writeSidecar 4294967295 "s" [] FileSystem.empty = .ok (some [0, 0]) ∧
      ([0, 0] : List Nat)[1]? = some 0 ∧ (0 : Nat) ≠ 4294967295 + 1 := by
  decide

/-- C5, amended: for a read count `R` with `R + 1` below `2^32`, a tracking
writer that is
destroyed without any `addOverlap` leaves the sidecar 0, `R + 1`, then `R + 1`
zeros, and the reader for `R` reads that loads it reports a total of 0 and 0
for every read `r ≤ R`. -/
theorem C5_zero_overlap_sidecar (R : Nat) (hR : R + 1 < UINT32_RANGE) (p : String)
    (fs : FileSystem) :
    writeSidecar R p [] fs = .ok (some ([0, R + 1] ++ List.replicate (R + 1) 0)) ∧
      ∃ rd, closeAndReopen R p [] fs = .ok rd ∧ rd.numOverlaps = 0 ∧
        ∀ r, r ≤ R → rd.numOverlaps_readID r = .ok 0 := by
  have hw : writeSidecar R p [] fs = .ok (some ([0, R + 1] ++ List.replicate (R + 1) 0)) := by
    simp only [writeSidecar, new_tracking R hR p, ovFileOCW.addOverlaps,
      destructor_tracking 0 R _ _ fs (List.length_replicate (R + 1) 0), write_same]
    rfl
  have hr : closeAndReopen R p [] fs =
      .ok { _nOlaps := 0, _oprMax := R + 1, _opr := some (List.replicate (R + 1) 0) } := by
    simp only [closeAndReopen, new_tracking R hR p, ovFileOCW.addOverlaps,
      destructor_tracking 0 R _ _ fs (List.length_replicate (R + 1) 0), write_same,
      ovFileOCR.new, Nat.mod_eq_of_lt hR,
      load_full R _ _ (List.length_replicate (R + 1) 0)]
    rfl
  refine ⟨hw, _, hr, rfl, ?_⟩
  intro r hle
  rw [numOverlaps_readID_inside _ _ _ r (by simp; omega), getD_replicate_zero]

/-- Instance of C5 (amended): a store with 5 reads. -/
theorem C5_zero_overlap_sidecar_witness :
    writeSidecar 5 "store.0.0" [] FileSystem.empty =
        .ok (some ([0, 5 + 1] ++ List.replicate (5 + 1) 0)) ∧
      ∃ rd, closeAndReopen 5 "store.0.0" [] FileSystem.empty = .ok rd ∧ rd.numOverlaps = 0 ∧
        ∀ r, r ≤ 5 → rd.numOverlaps_readID r = .ok 0 :=
  C5_zero_overlap_sidecar 5 (by decide) "store.0.0" FileSystem.empty

/-- C6: a reader built without a shard name, or with a shard name whose `.oc`
file does not exist, is always constructed, for every read count and file
system, and its total is 0. -/
theorem C6_missing_sidecar_total (R : Nat) (pfx : Option String) (fs : FileSystem)
    (h : ∀ p, pfx = some p → fs (ocName p) = none) :
    ∃ rd, ovFileOCR.new R pfx fs = .ok rd ∧ rd.numOverlaps = 0 := by
  cases pfx with
  | none => exact ⟨_, rfl, rfl⟩
  | some p =>
    refine ⟨{ _nOlaps := 0, _oprMax := 0, _opr := none }, ?_, rfl⟩
    simp only [ovFileOCR.new, h p rfl]

/-- Instance of C6: the shard name `store.0.0` in a file system without files. -/
theorem C6_missing_sidecar_total_witness :
    ∃ rd, ovFileOCR.new 5 (some "store.0.0") FileSystem.empty = .ok rd ∧ rd.numOverlaps = 0 :=
  C6_missing_sidecar_total 5 (some "store.0.0") FileSystem.empty (fun _ _ => rfl)

/-- C7, as stated, fails: the reader built for 5 reads without a shard name
holds no table, and its per-read query for read 1 reads through the null
pointer instead of returning 0. -/
theorem C7_per_read_query_without_table :
    ovFileOCR.new 5 none FileSystem.empty = .ok { _nOlaps := 0, _oprMax := 0, _opr := none } ∧
      ovFileOCR.numOverlaps_readID { _nOlaps := 0, _oprMax := 0, _opr := none } 1 =
        .error .nullDeref ∧
      ovFileOCR.numOverlaps_readID { _nOlaps := 0, _oprMax := 0, _opr := none } 1 ≠ .ok 0 := by
  decide

/-- C7, amended: a reader built without a shard name, or with a shard name whose
`.oc` file does not exist, holds the empty state (total 0, table length 0, no
table): `numOverlaps()` is 0, and the per-read query has no value for any
`readID`, because it reads through the null table pointer. -/
theorem C7_missing_sidecar_state (R : Nat) (pfx : Option String) (fs : FileSystem)
    (h : ∀ p, pfx = some p → fs (ocName p) = none) :
    ∃ rd, ovFileOCR.new R pfx fs = .ok rd ∧ rd.numOverlaps = 0 ∧ rd._oprMax = 0 ∧
      rd._opr = none ∧ ∀ readID, rd.numOverlaps_readID readID = .error .nullDeref := by
  have hnew : ovFileOCR.new R pfx fs = .ok { _nOlaps := 0, _oprMax := 0, _opr := none } := by
    cases pfx with
    | none => rfl
    | some p => simp only [ovFileOCR.new, h p rfl]
  exact ⟨_, hnew, rfl, rfl, rfl, fun _ => rfl⟩

/-- Instance of C7 (amended): the shard name `store.0.0` in a file system
without files. -/
theorem C7_missing_sidecar_state_witness :
    ∃ rd, ovFileOCR.new 5 (some "store.0.0") FileSystem.empty = .ok rd ∧ rd.numOverlaps = 0 ∧
      rd._oprMax = 0 ∧ rd._opr = none ∧
      ∀ readID, rd.numOverlaps_readID readID = .error .nullDeref :=
  C7_missing_sidecar_state 5 (some "store.0.0") FileSystem.empty (fun _ _ => rfl)

/-- C8 at its failing input: after 4294967296 accepted overlaps on the count
writer of a full-write handle for 5 reads, the 64-bit total is 4294967296, above
the cap for every size of the payload, and yet `fileTooBig()` is false. -/
theorem C8_fileTooBig_false_above_cap (sizeofDAT : Nat) :
    ∃ w, (ovFileOCW.new 5 (some "store.0.0")).addOverlaps
          (List.replicate 4294967296 ⟨1, 2, []⟩) = .ok w ∧
      w._nOlaps = 4294967296 ∧
      OVFILE_MAX_OVERLAPS sizeofDAT < 4294967296 ∧
      ovFile.fileTooBig
        { _countsW := some w, _countsR := none, _isOutput := true, _isNormal := false }
        sizeofDAT = .ok false := by
  obtain ⟨t, hrun, _, _⟩ := tracking_run 5 (by decide) "store.0.0"
    (List.replicate 4294967296 ⟨1, 2, []⟩)
    (by intro o ho; rw [List.eq_of_mem_replicate ho]; decide)
  rw [List.length_replicate] at hrun
  refine ⟨_, hrun, rfl, ?_, ?_⟩
  · exact Nat.lt_of_le_of_lt (Nat.div_le_self _ _) (by decide)
  · simp [ovFile.fileTooBig, ovFileOCW.numOverlaps, UINT64_RANGE, UINT32_RANGE]

/-- C9 at its failing input: after 4294967296 overlaps on the count writer of a
normal-write handle the 64-bit total is 4294967296, and both `numOverlaps()` of
the writer and `filePosition()` of the handle return 0. -/
theorem C9_filePosition_wraps :
    ∃ w, (ovFileOCW.new 5 none).addOverlaps (List.replicate 4294967296 ⟨1, 2, []⟩) = .ok w ∧
      w._nOlaps = 4294967296 ∧
      w.numOverlaps = 0 ∧
      ovFile.filePosition
        { _countsW := some w, _countsR := none, _isOutput := true, _isNormal := true } =
          .ok 0 := by
  have hrun := addOverlaps_untracked (List.replicate 4294967296 ⟨1, 2, []⟩)
    (ovFileOCW.new 5 none) rfl (show 0 < UINT64_RANGE by decide)
  rw [List.length_replicate] at hrun
  exact ⟨_, hrun, rfl, rfl, rfl⟩

/-- C10, as stated, fails at the read count 4294967295: `numReads + 1` wraps to 0
in the `uint32` `_oprMax`, and the tracking writer aborts on the overlap (0,0)
although neither id is above `R`. -/
theorem C10_in_range_overlap_aborts_at_wrapping_read_count :
    (ovFileOCW.new 4294967295 (some "s"))._oprMax = 0 ∧
      (ovFileOCW.new 4294967295 (some "s")).addOverlap ⟨0, 0, []⟩ = .error .assertFailed ∧
      ¬ (4294967295 < 0 ∨ 4294967295 < 0) := by
  decide

/-- C10, amended: let `w` be any state that a writer built for `R` reads (`R + 1`
below `2^32`) reaches through accepted overlaps, and `o` the next overlap. Then
`addOverlap` stops exactly when the writer tracks per-read counts (it was built
with a shard name) and an id of `o` is above `R`, and it stops at an assertion,
never at an access outside the table; when it returns on a tracking writer, the
table keeps its `R + 1` entries and entry `r` has grown, modulo `2^32`, by one
for each id of `o` equal to `r`, so that only the entries of the two ids change;
a writer built without a shard name accepts every overlap. -/
theorem C10_addOverlap_fails_iff_out_of_range (R : Nat) (hR : R + 1 < UINT32_RANGE)
    (pfx : Option String) (os : List ovOverlap) (w : ovFileOCW)
    (hw : (ovFileOCW.new R pfx).addOverlaps os = .ok w) (o : ovOverlap) :
    ((∃ e, w.addOverlap o = .error e) ↔ (pfx ≠ none ∧ (R < o.a_iid ∨ R < o.b_iid))) ∧
      (∀ e, w.addOverlap o = .error e → e = .assertFailed) ∧
      (pfx ≠ none → ∀ w1, w.addOverlap o = .ok w1 →
        ∃ t t1, w._opr = some t ∧ w1._opr = some t1 ∧ t.length = R + 1 ∧ t1.length = R + 1 ∧
          o.a_iid < t.length ∧ o.b_iid < t.length ∧
          ∀ r, t1.getD r 0 =
            (t.getD r 0 + ((if o.a_iid = r then 1 else 0) + (if o.b_iid = r then 1 else 0)))
              % UINT32_RANGE) ∧
      (pfx = none → ∃ w1, w.addOverlap o = .ok w1) := by
  cases pfx with
  | none =>
    have hnone : w._opr = none := addOverlaps_new_untracked R os w hw
    have hok : w.addOverlap o = .ok { w with _nOlaps := (w._nOlaps + 1) % UINT64_RANGE } := by
      simp [ovFileOCW.addOverlap, hnone]
    refine ⟨⟨?_, ?_⟩, ?_, ?_, ?_⟩
    · rintro ⟨e, he⟩
      rw [hok] at he
      cases he
    · rintro ⟨h, _⟩
      exact absurd rfl h
    · intro e he
      rw [hok] at he
      cases he
    · intro h
      exact absurd rfl h
    · intro _
      exact ⟨_, hok⟩
  | some p =>
    obtain ⟨hmax, t, hopr, hlen, hbd⟩ :=
      addOverlaps_tableOK R os _ w (new_tableOK R hR p) hw
    by_cases hin : o.a_iid ≤ R ∧ o.b_iid ≤ R
    · obtain ⟨t1, hstep, hl1, _, hv1⟩ :=
        addOverlap_tracking R w t o hmax hopr hlen hbd hin.1 hin.2
      refine ⟨⟨?_, ?_⟩, ?_, ?_, ?_⟩
      · rintro ⟨e, he⟩
        rw [hstep] at he
        cases he
      · rintro ⟨_, h⟩
        omega
      · intro e he
        rw [hstep] at he
        cases he
      · intro _ w1 hw1
        rw [hstep] at hw1
        cases hw1
        exact ⟨t, t1, hopr, rfl, hlen, hl1, by omega, by omega, hv1⟩
      · intro h
        cases h
    · have hout : R < o.a_iid ∨ R < o.b_iid := by omega
      have hfail := addOverlap_out_of_range R w t o hmax hopr hout
      refine ⟨⟨?_, ?_⟩, ?_, ?_, ?_⟩
      · intro _
        exact ⟨by simp, hout⟩
      · intro _
        exact ⟨_, hfail⟩
      · intro e he
        rw [hfail] at he
        cases he
        rfl
      · intro _ w1 hw1
        rw [hfail] at hw1
        cases hw1
      · intro h
        cases h

/-- Instance of C10 (amended): the writer for 5 reads after the record (1,2), and the
overlap (3,9), whose second id is out of range. -/
theorem C10_addOverlap_fails_iff_out_of_range_witness :
    (ovFileOCW.new 5 (some "store.0.0")).addOverlaps [⟨1, 2, []⟩] =
        .ok { _nOlaps := 1, _oprMax := 6, _opr := some [0, 1, 1, 0, 0, 0],
              _name := ocName "store.0.0" } ∧
      ((∃ e, ovFileOCW.addOverlap
            { _nOlaps := 1, _oprMax := 6, _opr := some [0, 1, 1, 0, 0, 0],
              _name := ocName "store.0.0" } ⟨3, 9, []⟩ = .error e) ↔
          ((some "store.0.0" : Option String) ≠ none ∧ (5 < 3 ∨ 5 < 9))) ∧
      ovFileOCW.addOverlap
          { _nOlaps := 1, _oprMax := 6, _opr := some [0, 1, 1, 0, 0, 0],
            _name := ocName "store.0.0" } ⟨3, 9, []⟩ = .error .assertFailed :=
  ⟨by decide,
    (C10_addOverlap_fails_iff_out_of_range 5 (by decide) (some "store.0.0") [⟨1, 2, []⟩]
      { _nOlaps := 1, _oprMax := 6, _opr := some [0, 1, 1, 0, 0, 0],
        _name := ocName "store.0.0" }
      (by decide) ⟨3, 9, []⟩).1,
    by decide⟩

/-! ## Further facts about the writer -/

/-- An accepted `addOverlap` adds one to the 64-bit total, whatever the ids. -/
theorem addOverlap_total (w w1 : ovFileOCW) (o : ovOverlap) (h : w.addOverlap o = .ok w1) :
    w1._nOlaps = (w._nOlaps + 1) % UINT64_RANGE := by
  unfold ovFileOCW.addOverlap at h
  cases hopr : w._opr with
  | none =>
    simp only [hopr] at h
    cases h
    rfl
  | some t =>
    simp only [hopr] at h
    split_ifs at h
    cases ha : incrementEntry t o.a_iid with
    | error e => simp only [ha] at h; cases h
    | ok t1 =>
      simp only [ha] at h
      cases hb : incrementEntry t1 o.b_iid with
      | error e => simp only [hb] at h; cases h
      | ok t2 =>
        simp only [hb] at h
        cases h
        rfl

/-- The total after an accepted run depends on the number of overlaps only. -/
theorem addOverlaps_total (os : List ovOverlap) :
    ∀ (w w1 : ovFileOCW), w._nOlaps < UINT64_RANGE → w.addOverlaps os = .ok w1 →
      w1._nOlaps = (w._nOlaps + os.length) % UINT64_RANGE := by
  induction os with
  | nil =>
    intro w w1 hn h
    simp only [ovFileOCW.addOverlaps] at h
    cases h
    simp only [List.length_nil, Nat.add_zero]
    exact (Nat.mod_eq_of_lt hn).symm
  | cons o os ih =>
    intro w w1 _ h
    simp only [ovFileOCW.addOverlaps] at h
    cases hstep : w.addOverlap o with
    | error e => rw [hstep] at h; cases h
    | ok w2 =>
      rw [hstep] at h
      have h2 := addOverlap_total w w2 o hstep
      have hn2 : w2._nOlaps < UINT64_RANGE := by
        rw [h2]
        exact Nat.mod_lt _ (by decide)
      rw [ih w2 w1 hn2 h, h2, List.length_cons]
      unfold UINT64_RANGE
      omega

theorem new_total (R : Nat) (pfx : Option String) : (ovFileOCW.new R pfx)._nOlaps = 0 := by
  cases pfx <;> rfl

/-- Overlaps that a writer with a table of `R + 1` entries accepts have both
ids at most `R`. -/
theorem addOverlaps_accepted_in_range (R : Nat) (os : List ovOverlap) :
    ∀ (w w1 : ovFileOCW), w.tableOK R → w.addOverlaps os = .ok w1 →
      ∀ o ∈ os, o.a_iid ≤ R ∧ o.b_iid ≤ R := by
  induction os with
  | nil =>
    intro _ _ _ _ o ho
    cases ho
  | cons x xs ih =>
    intro w w1 hw h o ho
    simp only [ovFileOCW.addOverlaps] at h
    cases hstep : w.addOverlap x with
    | error e => rw [hstep] at h; cases h
    | ok w2 =>
      rw [hstep] at h
      have hx : x.a_iid ≤ R ∧ x.b_iid ≤ R := by
        by_contra hout
        obtain ⟨hmax, t, hopr, _, _⟩ := hw
        have hout1 : R < x.a_iid ∨ R < x.b_iid := by omega
        rw [addOverlap_out_of_range R w t x hmax hopr hout1] at hstep
        cases hstep
      rcases List.mem_cons.1 ho with rfl | hmem
      · exact hx
      · exact ih w2 w1 (addOverlap_tableOK R w w2 x hw hstep) h o hmem

theorem sum_eq_sum_getD (t : List Nat) :
    t.sum = ∑ i in Finset.range t.length, t.getD i 0 := by
  induction t with
  | nil => simp
  | cons x xs ih =>
    rw [List.sum_cons, List.length_cons, Finset.sum_range_succ', ih]
    simp only [List.getD_cons_succ, List.getD_cons_zero]
    omega

/-- Summed over the read ids `0..R`, the endpoint counts of in-range records
give two per record. -/
theorem sum_endpointsAt (R : Nat) (os : List ovOverlap)
    (hin : ∀ o ∈ os, o.a_iid ≤ R ∧ o.b_iid ≤ R) :
    ∑ r in Finset.range (R + 1), endpointsAt r os = 2 * os.length := by
  induction os with
  | nil => simp [endpointsAt]
  | cons o os ih =>
    have ho := hin o (List.mem_cons_self o os)
    have ih1 := ih (fun x hx => hin x (List.mem_cons_of_mem o hx))
    have ha : o.a_iid ∈ Finset.range (R + 1) := Finset.mem_range.2 (by omega)
    have hb : o.b_iid ∈ Finset.range (R + 1) := Finset.mem_range.2 (by omega)
    simp only [endpointsAt_cons, Finset.sum_add_distrib, Finset.sum_ite_eq, ha, hb, if_true, ih1,
      List.length_cons]
    omega

/-- A tracking writer whose table length `(R + 1) mod 2^32` came out as 0
accepts no overlap. -/
theorem addOverlaps_empty_table (os : List ovOverlap) (w w1 : ovFileOCW) (t : List Nat)
    (hmax : w._oprMax = 0) (hopr : w._opr = some t) (h : w.addOverlaps os = .ok w1) :
    os = [] ∧ w1 = w := by
  cases os with
  | nil =>
    simp only [ovFileOCW.addOverlaps] at h
    cases h
    exact ⟨rfl, rfl⟩
  | cons o os =>
    have hfail : w.addOverlap o = .error .assertFailed := by
      simp [ovFileOCW.addOverlap, hopr, hmax]
    simp only [ovFileOCW.addOverlaps, hfail] at h
    cases h

/-- The table of a tracking writer after an accepted run, when no entry
wrapped: entry `r` is the number of endpoints equal to `r`. -/
theorem tracking_table_sum (R : Nat) (hR : R + 1 < UINT32_RANGE) (p : String)
    (os : List ovOverlap) (w : ovFileOCW) (t : List Nat)
    (hw : (ovFileOCW.new R (some p)).addOverlaps os = .ok w) (ht : w._opr = some t)
    (hnowrap : ∀ r, endpointsAt r os < UINT32_RANGE) : t.sum = 2 * os.length := by
  have hin := addOverlaps_accepted_in_range R os _ w (new_tableOK R hR p) hw
  obtain ⟨t1, hrun, hl, hv⟩ := tracking_run R hR p os hin
  rw [hrun] at hw
  cases hw
  cases ht
  rw [sum_eq_sum_getD, hl, ← sum_endpointsAt R os hin]
  refine Finset.sum_congr rfl (fun r _ => ?_)
  rw [hv r, Nat.mod_eq_of_lt (hnowrap r)]

theorem endpointsAt_le (r : Nat) (os : List ovOverlap) : endpointsAt r os ≤ 2 * os.length := by
  have h1 := List.countP_le_length (fun o : ovOverlap => decide (o.a_iid = r)) (l := os)
  have h2 := List.countP_le_length (fun o : ovOverlap => decide (o.b_iid = r)) (l := os)
  unfold endpointsAt
  omega

/-! ## The properties, continued -/

/-- C11: a writer built without a shard name has no table and table length 0;
after any overlaps `os` its state differs from the initial one in the total
only, one more `addOverlap` again changes the total only, which becomes the
number of calls so far (as a `uint64`), and its destructor leaves the file
system as it was: no sidecar is written. -/
theorem C11_untracked_writer_counts_only (R : Nat) (os : List ovOverlap) (o : ovOverlap)
    (fs : FileSystem) :
    ovFileOCW.new R none = { _nOlaps := 0, _oprMax := 0, _opr := none, _name := "" } ∧
      (ovFileOCW.new R none).addOverlaps os =
        .ok { _nOlaps := os.length % UINT64_RANGE, _oprMax := 0, _opr := none, _name := "" } ∧
      ovFileOCW.addOverlap
          { _nOlaps := os.length % UINT64_RANGE, _oprMax := 0, _opr := none, _name := "" } o =
        .ok { _nOlaps := (os.length + 1) % UINT64_RANGE, _oprMax := 0, _opr := none,
              _name := "" } ∧
      ovFileOCW.destructor
          { _nOlaps := os.length % UINT64_RANGE, _oprMax := 0, _opr := none, _name := "" } fs =
        .ok fs := by
  refine ⟨rfl, ?_, ?_, rfl⟩
  · rw [addOverlaps_untracked os (ovFileOCW.new R none) rfl (show 0 < UINT64_RANGE by decide)]
    simp [ovFileOCW.new]
  · have e : (os.length % UINT64_RANGE + 1) % UINT64_RANGE = (os.length + 1) % UINT64_RANGE := by
      unfold UINT64_RANGE
      omega
    simp only [ovFileOCW.addOverlap, e]

/-- C12 at its failing input: the sidecar of a store without reads is the
words 0, 1, 0; a reader for 5 reads that loads it allocates 6 entries but
records the table length 1 taken from the file, not 6; and a sidecar that
announces more entries than the reader allocated is written past the table. -/
theorem C12_reader_length_from_file :
    writeSidecar 0 "store.0.0" [] FileSystem.empty = .ok (some [0, 1, 0]) ∧
      ovFileOCR.new 5 (some "store.0.0")
          (FileSystem.empty.write (ocName "store.0.0") [0, 1, 0]) =
        .ok { _nOlaps := 0, _oprMax := 1, _opr := some [0, 0, 0, 0, 0, 0] } ∧
      ovFileOCR.new 0 (some "store.0.0")
          (FileSystem.empty.write (ocName "store.0.0") [0, 2, 0, 0]) =
        .error .outOfBounds := by
  refine ⟨by decide, by rfl, by rfl⟩

/-- C13: when the sum fits a `uint64`, `recordSize()` is 4 times 1 (normal) or
2 (full) plus `sizeof(ovOverlapWORD) * ovOverlapNWORDS`; so it takes two values,
the full size is the normal size plus 4, and two handles of the same kind have
the same record size whatever else they hold. -/
theorem C13_recordSize_by_mode (sizeofWORD nWORDS : Nat)
    (hfit : 8 + sizeofWORD * nWORDS < UINT64_RANGE) :
    (∀ f : ovFile,
        f.recordSize sizeofWORD nWORDS =
          4 * (if f._isNormal then 1 else 2) + sizeofWORD * nWORDS) ∧
      (∀ f : ovFile, f.recordSize sizeofWORD nWORDS = 4 + sizeofWORD * nWORDS ∨
        f.recordSize sizeofWORD nWORDS = 8 + sizeofWORD * nWORDS) ∧
      (∀ f g : ovFile, f._isNormal = true → g._isNormal = false →
        g.recordSize sizeofWORD nWORDS = f.recordSize sizeofWORD nWORDS + 4) ∧
      (∀ f g : ovFile, f._isNormal = g._isNormal →
        f.recordSize sizeofWORD nWORDS = g.recordSize sizeofWORD nWORDS) := by
  have hval : ∀ f : ovFile, f.recordSize sizeofWORD nWORDS =
      4 * (if f._isNormal then 1 else 2) + sizeofWORD * nWORDS := by
    intro f
    unfold ovFile.recordSize
    apply Nat.mod_eq_of_lt
    split_ifs <;> omega
  refine ⟨hval, ?_, ?_, ?_⟩
  · intro f
    rw [hval f]
    cases f._isNormal
    · right; simp
    · left; simp
  · intro f g hf hg
    rw [hval f, hval g, hf, hg]
    simp
    omega
  · intro f g h
    unfold ovFile.recordSize
    rw [h]

/-- Instance of C13: payload words of 4 bytes, 5 of them per record. -/
theorem C13_recordSize_by_mode_witness :
    (∀ f : ovFile, f.recordSize 4 5 = 4 * (if f._isNormal then 1 else 2) + 4 * 5) ∧
      (∀ f : ovFile, f.recordSize 4 5 = 4 + 4 * 5 ∨ f.recordSize 4 5 = 8 + 4 * 5) ∧
      (∀ f g : ovFile, f._isNormal = true → g._isNormal = false →
        g.recordSize 4 5 = f.recordSize 4 5 + 4) ∧
      (∀ f g : ovFile, f._isNormal = g._isNormal → f.recordSize 4 5 = g.recordSize 4 5) :=
  C13_recordSize_by_mode 4 5 (by decide)

/-- C14: two accepted runs of the same length, on writers of either kind built
for any read counts, end with the same 64-bit total, hence with the same
`numOverlaps()`, and handles owning these writers agree on `filePosition()`
and `fileTooBig()`; each further accepted `addOverlap` adds exactly one to the
64-bit total (as a `uint64`), whatever ids the overlap carries. -/
theorem C14_total_content_independent (R1 R2 : Nat) (pfx1 pfx2 : Option String)
    (os1 os2 : List ovOverlap) (w1 w2 : ovFileOCW)
    (h1 : (ovFileOCW.new R1 pfx1).addOverlaps os1 = .ok w1)
    (h2 : (ovFileOCW.new R2 pfx2).addOverlaps os2 = .ok w2)
    (hlen : os1.length = os2.length) (f1 f2 : ovFile)
    (hf1 : f1._countsW = some w1) (hf2 : f2._countsW = some w2) (sizeofDAT : Nat) :
    w1._nOlaps = w2._nOlaps ∧
      w1.numOverlaps = w2.numOverlaps ∧
      f1.filePosition = f2.filePosition ∧
      f1.fileTooBig sizeofDAT = f2.fileTooBig sizeofDAT ∧
      (∀ o w3, w1.addOverlap o = .ok w3 → w3._nOlaps = (w1._nOlaps + 1) % UINT64_RANGE) := by
  have hpos : (0 : Nat) < UINT64_RANGE := by decide
  have e1 := addOverlaps_total os1 _ w1 (by rw [new_total]; exact hpos) h1
  have e2 := addOverlaps_total os2 _ w2 (by rw [new_total]; exact hpos) h2
  rw [new_total] at e1 e2
  have e : w1._nOlaps = w2._nOlaps := by rw [e1, e2, hlen]
  refine ⟨e, ?_, ?_, ?_, fun o w3 h => addOverlap_total w1 w3 o h⟩
  · simp only [ovFileOCW.numOverlaps, e]
  · simp only [ovFile.filePosition, hf1, hf2, ovFileOCW.numOverlaps, e]
  · simp only [ovFile.fileTooBig, hf1, hf2, ovFileOCW.numOverlaps, e]

/-- Instance of C14: the record (1,2) on a tracking writer for 5 reads against
the record (7,9) on a writer built without a shard name. -/
theorem C14_total_content_independent_witness :
    ovFileOCW._nOlaps
          { _nOlaps := 1, _oprMax := 6, _opr := some [0, 1, 1, 0, 0, 0],
            _name := ocName "store.0.0" } =
        ovFileOCW._nOlaps { _nOlaps := 1, _oprMax := 0, _opr := none, _name := "" } ∧
      ovFileOCW.numOverlaps
          { _nOlaps := 1, _oprMax := 6, _opr := some [0, 1, 1, 0, 0, 0],
            _name := ocName "store.0.0" } =
        ovFileOCW.numOverlaps { _nOlaps := 1, _oprMax := 0, _opr := none, _name := "" } ∧
      ovFile.filePosition
          { _countsW := some { _nOlaps := 1, _oprMax := 6, _opr := some [0, 1, 1, 0, 0, 0],
                               _name := ocName "store.0.0" },
            _countsR := none, _isOutput := true, _isNormal := false } =
        ovFile.filePosition
          { _countsW := some { _nOlaps := 1, _oprMax := 0, _opr := none, _name := "" },
            _countsR := none, _isOutput := true, _isNormal := true } ∧
      ovFile.fileTooBig
          { _countsW := some { _nOlaps := 1, _oprMax := 6, _opr := some [0, 1, 1, 0, 0, 0],
                               _name := ocName "store.0.0" },
            _countsR := none, _isOutput := true, _isNormal := false } 28 =
        ovFile.fileTooBig
          { _countsW := some { _nOlaps := 1, _oprMax := 0, _opr := none, _name := "" },
            _countsR := none, _isOutput := true, _isNormal := true } 28 ∧
      (∀ o w3,
        ovFileOCW.addOverlap
            { _nOlaps := 1, _oprMax := 6, _opr := some [0, 1, 1, 0, 0, 0],
              _name := ocName "store.0.0" } o = .ok w3 →
          w3._nOlaps = (1 + 1) % UINT64_RANGE) :=
  C14_total_content_independent 5 0 (some "store.0.0") none [⟨1, 2, []⟩] [⟨7, 9, []⟩]
    { _nOlaps := 1, _oprMax := 6, _opr := some [0, 1, 1, 0, 0, 0], _name := ocName "store.0.0" }
    { _nOlaps := 1, _oprMax := 0, _opr := none, _name := "" }
    (by decide) (by decide) (by decide)
    { _countsW := some { _nOlaps := 1, _oprMax := 6, _opr := some [0, 1, 1, 0, 0, 0],
                         _name := ocName "store.0.0" },
      _countsR := none, _isOutput := true, _isNormal := false }
    { _countsW := some { _nOlaps := 1, _oprMax := 0, _opr := none, _name := "" },
      _countsR := none, _isOutput := true, _isNormal := true }
    rfl rfl 28

/-- C15: in a tracking writer built for any read count, after an accepted run
`os` in which no table entry wrapped (no read id is an endpoint `2^32` times or
more), the entries of the table sum to twice the number of overlaps. -/
theorem C15_tally_sum (R : Nat) (p : String) (os : List ovOverlap) (w : ovFileOCW)
    (t : List Nat) (hw : (ovFileOCW.new R (some p)).addOverlaps os = .ok w)
    (ht : w._opr = some t) (hnowrap : ∀ r, endpointsAt r os < UINT32_RANGE) :
    t.sum = 2 * os.length := by
  by_cases hzero : (R + 1) % UINT32_RANGE = 0
  · have hnew : ovFileOCW.new R (some p) =
        { _nOlaps := 0, _oprMax := 0, _opr := some [], _name := ocName p } := by
      simp only [ovFileOCW.new, hzero, allocateArray, List.replicate_zero]
    rw [hnew] at hw
    obtain ⟨hos, hw1⟩ := addOverlaps_empty_table os _ w [] rfl rfl hw
    subst hos
    subst hw1
    cases ht
    rfl
  · have hlt : (R + 1) % UINT32_RANGE < UINT32_RANGE := Nat.mod_lt _ (by decide)
    have hR1 : ((R + 1) % UINT32_RANGE - 1) + 1 < UINT32_RANGE := by omega
    have hnew : ovFileOCW.new R (some p) =
        ovFileOCW.new ((R + 1) % UINT32_RANGE - 1) (some p) := by
      have e : ((R + 1) % UINT32_RANGE - 1 + 1) % UINT32_RANGE = (R + 1) % UINT32_RANGE := by
        rw [Nat.mod_eq_of_lt hR1]
        omega
      simp only [ovFileOCW.new, e]
    rw [hnew] at hw
    exact tracking_table_sum _ hR1 p os w t hw ht hnowrap

/-- Instance of C15: 5 reads and the records (1,2), (1,1), (3,4). -/
theorem C15_tally_sum_witness : [0, 3, 1, 1, 1, 0].sum = 2 * [(⟨1, 2, []⟩ : ovOverlap),
    ⟨1, 1, []⟩, ⟨3, 4, []⟩].length :=
  C15_tally_sum 5 "store.0.0" [⟨1, 2, []⟩, ⟨1, 1, []⟩, ⟨3, 4, []⟩]
    { _nOlaps := 3, _oprMax := 6, _opr := some [0, 3, 1, 1, 1, 0], _name := ocName "store.0.0" }
    [0, 3, 1, 1, 1, 0] (by decide) rfl
    (fun r => Nat.lt_of_le_of_lt (endpointsAt_le r _) (by decide))

/-! ## Auxiliary facts about the tokenizer -/

theorem cstring_cons (c : Char) (cs : List Char) :
    cstring (c :: cs) = if c = NUL then [] else c :: cstring cs := by
  unfold cstring
  by_cases h : c = NUL <;> simp [List.takeWhile_cons, h]

/-- The first loop counts the characters and the separators of the C string. -/
theorem countLoop_eq (type : splitType) (mem : List Char) :
    ∀ a b, splitToWords.countLoop type mem a b =
      (a + (cstring mem).length, b + separatorCount type (cstring mem)) := by
  induction mem with
  | nil =>
    intro a b
    simp [splitToWords.countLoop, cstring, separatorCount]
  | cons c cs ih =>
    intro a b
    by_cases h : c = NUL
    · simp [splitToWords.countLoop, cstring_cons, h, separatorCount]
    · simp only [splitToWords.countLoop, cstring_cons, h, if_false, ih, List.length_cons,
        separatorCount, List.countP_cons]
      by_cases hs : splitToWords.isSeparator c type = true
      · simp only [hs, if_true, Prod.mk.injEq]
        omega
      · simp only [hs, if_false, Prod.mk.injEq, Bool.false_eq_true]
        omega

theorem take_cstring (mem : List Char) : mem.take (cstring mem).length = cstring mem := by
  have h : cstring mem <+: mem := List.takeWhile_prefix _
  exact (List.prefix_iff_eq_take.1 h).symm

theorem cstring_no_nul (mem : List Char) : ∀ c ∈ cstring mem, c ≠ NUL := by
  intro c hc
  have h := List.mem_takeWhile_imp hc
  simpa using h

theorem separatorCount_le (type : splitType) (cs : List Char) :
    separatorCount type cs ≤ cs.length :=
  List.countP_le_length _

/-- The second loop starts at most one word more than there are separators. -/
theorem wordStarts_length_le (type : splitType) (cs : List Char) :
    ∀ ii st, (wordStarts type cs ii st).length ≤
      separatorCount type cs + (if st = true then 1 else 0) := by
  induction cs with
  | nil =>
    intro ii st
    simp [wordStarts]
  | cons c cs ih =>
    intro ii st
    by_cases hs : splitToWords.isSeparator c type = true
    · have h := ih (ii + 1) true
      simp only [wordStarts, hs, if_true, separatorCount, List.countP_cons] at h ⊢
      split_ifs <;> omega
    · have h := ih (ii + 1) false
      simp only [separatorCount, List.countP_cons, hs, if_false, Bool.false_eq_true] at h ⊢
      cases st
      · simp only [wordStarts, hs, if_false, Bool.false_eq_true]
        omega
      · simp only [wordStarts, hs, if_false, if_true, List.length_cons, Bool.false_eq_true]
        omega

theorem maximalRuns_cons (sep : Char → Bool) (c : Char) (cs : List Char) :
    maximalRuns sep (c :: cs) =
      if sep c = true then maximalRuns sep cs
      else (c :: cs.takeWhile (fun d => !sep d)) ::
        maximalRuns sep (cs.dropWhile (fun d => !sep d)) := by
  rw [maximalRuns]

theorem maximalRuns_nil (sep : Char → Bool) : maximalRuns sep [] = [] := by
  rw [maximalRuns]

/-- A C string read in the buffer after the second loop ends where the run of
non-separators ends. -/
theorem takeWhile_nulOut (type : splitType) (cs junk : List Char) (hn : ∀ c ∈ cs, c ≠ NUL) :
    (nulOut type cs ++ NUL :: junk).takeWhile (fun c => c != NUL) =
      cs.takeWhile (fun d => !splitToWords.isSeparator d type) := by
  induction cs with
  | nil => simp [nulOut]
  | cons c cs ih =>
    have hc : c ≠ NUL := hn c (List.mem_cons_self c cs)
    have ih1 := ih (fun x hx => hn x (List.mem_cons_of_mem c hx))
    unfold nulOut at ih1 ⊢
    by_cases hs : splitToWords.isSeparator c type = true
    · simp [List.takeWhile_cons, hs]
    · simp only [List.map_cons, hs, if_false, List.cons_append, List.takeWhile_cons,
        Bool.false_eq_true]
      simp [hc, ih1]

theorem set_append_cons {α : Type} (X : List α) (c d : α) (Y : List α) :
    (X ++ c :: Y).set X.length d = X ++ d :: Y := by
  induction X with
  | nil => rfl
  | cons x xs ih => simp [List.set_cons_succ, ih]

/-- The second loop, run on the characters `cs` that stand in the buffer after
`X`, with the words stored so far in `W` and room for the new ones in `Z`. -/
theorem markLoop_eq (type : splitType) (cs : List Char) :
    ∀ (X Y : List Char) (W Z : List (Option Nat)) (st : Bool) (s : splitToWords),
      s._chars = X ++ cs ++ Y → s._words = W ++ Z → s._wordsLen = W.length →
      (wordStarts type cs X.length st).length ≤ Z.length →
      W.length + (wordStarts type cs X.length st).length < UINT32_RANGE →
      splitToWords.markLoop type cs X.length st s =
        .ok { s with
              _chars := X ++ nulOut type cs ++ Y,
              _words := W ++ (wordStarts type cs X.length st).map some ++
                Z.drop (wordStarts type cs X.length st).length,
              _wordsLen := W.length + (wordStarts type cs X.length st).length } := by
  induction cs with
  | nil =>
    intro X Y W Z st s hc hw hl _ _
    cases s
    simp only [splitToWords.markLoop, wordStarts, nulOut, List.map_nil, List.append_nil,
      List.length_nil, List.drop_zero, Nat.add_zero] at *
    rw [hc, hw, hl]
  | cons c cs ih =>
    intro X Y W Z st s hc hw hl hroom hfit
    by_cases hs : splitToWords.isSeparator c type = true
    · have hlt : X.length < s._chars.length := by
        rw [hc]
        simp
      have hset : s._chars.set X.length NUL = (X ++ [NUL]) ++ cs ++ Y := by
        rw [hc]
        simp only [List.append_assoc, List.cons_append, List.nil_append, List.singleton_append]
        exact set_append_cons X c NUL (cs ++ Y)
      have hst : wordStarts type (c :: cs) X.length st = wordStarts type cs (X ++ [NUL]).length true := by
        simp [wordStarts, hs]
      rw [hst] at hroom hfit ⊢
      have h := ih (X ++ [NUL]) Y W Z true { s with _chars := s._chars.set X.length NUL }
        hset hw hl hroom hfit
      have hlen : (X ++ [NUL]).length = X.length + 1 := by simp
      rw [hlen] at h
      simp only [splitToWords.markLoop, hs, if_true, hlt, h, hlen]
      simp [nulOut, hs]
    · cases st with
      | true =>
        have hst : wordStarts type (c :: cs) X.length true =
            X.length :: wordStarts type cs (X ++ [c]).length false := by
          simp [wordStarts, hs]
        rw [hst] at hroom hfit ⊢
        simp only [List.length_cons] at hroom hfit
        cases Z with
        | nil => simp at hroom
        | cons z Z1 =>
          have hlt : s._wordsLen < s._words.length := by
            rw [hw, hl]
            simp
          have hset : s._words.set s._wordsLen (some X.length) =
              (W ++ [some X.length]) ++ Z1 := by
            rw [hw, hl]
            simp only [List.append_assoc, List.singleton_append]
            exact set_append_cons W z (some X.length) Z1
          have hmod : (s._wordsLen + 1) % UINT32_RANGE = (W ++ [some X.length]).length := by
            rw [hl, List.length_append, List.length_singleton]
            exact Nat.mod_eq_of_lt (by omega)
          have hc1 : s._chars = (X ++ [c]) ++ cs ++ Y := by
            rw [hc]
            simp
          have hroom1 : (wordStarts type cs (X ++ [c]).length false).length ≤ Z1.length := by
            simpa using hroom
          have hfit1 : (W ++ [some X.length]).length +
              (wordStarts type cs (X ++ [c]).length false).length < UINT32_RANGE := by
            rw [List.length_append, List.length_singleton]
            omega
          have h := ih (X ++ [c]) Y (W ++ [some X.length]) Z1 false
            { s with _words := s._words.set s._wordsLen (some X.length),
                     _wordsLen := (s._wordsLen + 1) % UINT32_RANGE }
            hc1 hset hmod hroom1 hfit1
          have hlen : (X ++ [c]).length = X.length + 1 := by simp
          rw [hlen] at h
          simp only [splitToWords.markLoop, hs, if_false, if_true, hlt, h, hlen,
            Bool.false_eq_true]
          simp [nulOut, hs]
          omega
      | false =>
        have hst : wordStarts type (c :: cs) X.length false =
            wordStarts type cs (X ++ [c]).length false := by
          simp [wordStarts, hs]
        rw [hst] at hroom hfit ⊢
        have hc1 : s._chars = (X ++ [c]) ++ cs ++ Y := by
          rw [hc]
          simp
        have h := ih (X ++ [c]) Y W Z false s hc1 hw hl hroom hfit
        have hlen : (X ++ [c]).length = X.length + 1 := by simp
        rw [hlen] at h
        simp only [splitToWords.markLoop, hs, if_false, h, hlen, Bool.false_eq_true]
        simp [nulOut, hs]

theorem drop_length_append {α : Type} (X Y : List α) : (X ++ Y).drop X.length = Y := by
  simp

/-- The C strings at the offsets stored by the second loop are the maximal runs:
all of them when the loop is at the start of a word (`st` true), those after
the current run when it is inside a word (`st` false). -/
theorem wordStarts_runs (type : splitType) (junk : List Char) (cs : List Char) :
    ∀ (X : List Char), (∀ c ∈ cs, c ≠ NUL) →
      (wordStarts type cs X.length true).map
          (fun off => ((X ++ nulOut type cs ++ NUL :: junk).drop off).takeWhile
            (fun c => c != NUL)) =
        maximalRuns (fun c => splitToWords.isSeparator c type) cs ∧
      (wordStarts type cs X.length false).map
          (fun off => ((X ++ nulOut type cs ++ NUL :: junk).drop off).takeWhile
            (fun c => c != NUL)) =
        maximalRuns (fun c => splitToWords.isSeparator c type)
          (cs.dropWhile (fun d => !splitToWords.isSeparator d type)) := by
  induction cs with
  | nil =>
    intro X _
    simp [wordStarts, maximalRuns_nil]
  | cons c cs ih =>
    intro X hn
    have hc : c ≠ NUL := hn c (List.mem_cons_self c cs)
    have hn1 : ∀ x ∈ cs, x ≠ NUL := fun x hx => hn x (List.mem_cons_of_mem c hx)
    by_cases hs : splitToWords.isSeparator c type = true
    · have h := ih (X ++ [NUL]) hn1
      have hbuf : X ++ nulOut type (c :: cs) ++ NUL :: junk =
          (X ++ [NUL]) ++ nulOut type cs ++ NUL :: junk := by
        simp [nulOut, hs]
      have hlen : (X ++ [NUL]).length = X.length + 1 := by simp
      rw [hbuf]
      rw [hlen] at h
      refine ⟨?_, ?_⟩
      · simp only [wordStarts, hs, if_true, maximalRuns_cons]
        exact h.1
      · have hd : (c :: cs).dropWhile (fun d => !splitToWords.isSeparator d type) = c :: cs := by
          simp [List.dropWhile_cons, hs]
        simp only [wordStarts, hs, if_true, hd, maximalRuns_cons]
        exact h.1
    · have h := ih (X ++ [c]) hn1
      have hbuf : X ++ nulOut type (c :: cs) ++ NUL :: junk =
          (X ++ [c]) ++ nulOut type cs ++ NUL :: junk := by
        simp [nulOut, hs]
      have hlen : (X ++ [c]).length = X.length + 1 := by simp
      rw [hlen] at h
      have hd : (c :: cs).dropWhile (fun d => !splitToWords.isSeparator d type) =
          cs.dropWhile (fun d => !splitToWords.isSeparator d type) := by
        simp [List.dropWhile_cons, hs]
      refine ⟨?_, ?_⟩
      · have hword : ((X ++ nulOut type (c :: cs) ++ NUL :: junk).drop X.length).takeWhile
            (fun c => c != NUL) =
            c :: cs.takeWhile (fun d => !splitToWords.isSeparator d type) := by
          have e : X ++ nulOut type (c :: cs) ++ NUL :: junk =
              X ++ (c :: (nulOut type cs ++ NUL :: junk)) := by
            simp [nulOut, hs]
          rw [e, drop_length_append, List.takeWhile_cons, takeWhile_nulOut type cs junk hn1]
          simp [hc]
        simp only [wordStarts, hs, if_false, if_true, List.map_cons, maximalRuns_cons, hword,
          Bool.false_eq_true]
        rw [hbuf, h.2]
      · simp only [wordStarts, hs, if_false, hd, Bool.false_eq_true]
        rw [hbuf]
        exact h.2

/-- Every maximal run is non-empty and free of separators. -/
theorem maximalRuns_sound (sep : Char → Bool) :
    ∀ (n : Nat) (l : List Char), l.length ≤ n →
      ∀ w ∈ maximalRuns sep l, w ≠ [] ∧ ∀ c ∈ w, sep c = false := by
  intro n
  induction n with
  | zero =>
    intro l hl w hw
    have : l = [] := List.length_eq_zero.1 (Nat.le_zero.1 hl)
    subst this
    rw [maximalRuns_nil] at hw
    cases hw
  | succ n ih =>
    intro l hl w hw
    cases l with
    | nil =>
      rw [maximalRuns_nil] at hw
      cases hw
    | cons c cs =>
      have hcs : cs.length ≤ n := by simpa using hl
      rw [maximalRuns_cons] at hw
      by_cases hs : sep c = true
      · simp only [hs, if_true] at hw
        exact ih cs hcs w hw
      · simp only [hs, if_false, List.mem_cons, Bool.false_eq_true] at hw
        rcases hw with rfl | hw
        · refine ⟨by simp, ?_⟩
          intro x hx
          rcases List.mem_cons.1 hx with rfl | hx1
          · simpa using hs
          · have := List.mem_takeWhile_imp hx1
            simpa using this
        · have hd : (cs.dropWhile (fun d => !sep d)).length ≤ n :=
            Nat.le_trans (List.dropWhile_sublist _).length_le hcs
          exact ih _ hd w hw

theorem resizeArray_room {α : Type} (array : List α) (arrayMax newMax : Nat) (clear : α)
    (h : array.length = arrayMax) :
    (resizeArray array arrayMax newMax clear).1.length =
        (resizeArray array arrayMax newMax clear).2 ∧
      newMax ≤ (resizeArray array arrayMax newMax clear).2 := by
  unfold resizeArray
  by_cases hle : newMax ≤ arrayMax
  · simp [hle, h]
  · simp [hle]

/-- The state in which `split` returns, for a well-formed prior state and a
line whose length plus one fits a `uint32`: the words are the offsets of
`wordStarts`, the buffer is the line with separators replaced by NUL, followed
by NUL. -/
theorem split_returns (s : splitToWords) (mem : List Char) (type : splitType)
    (hwf : s.wellFormed) (hlen : (cstring mem).length + 1 < UINT32_RANGE) :
    ∃ junkW junkC, s.split (some mem) type = .returns
        { _wordsLen := (wordStarts type (cstring mem) 0 true).length,
          _wordsMax := ((wordStarts type (cstring mem) 0 true).map some ++ junkW).length,
          _words := (wordStarts type (cstring mem) 0 true).map some ++ junkW,
          _charsLen := (cstring mem).length,
          _charsMax := (nulOut type (cstring mem) ++ NUL :: junkC).length,
          _chars := nulOut type (cstring mem) ++ NUL :: junkC } ∧
      separatorCount type (cstring mem) + 1 ≤
        ((wordStarts type (cstring mem) 0 true).map some ++ junkW).length := by
  obtain ⟨hw, hc⟩ := hwf
  have hsep := separatorCount_le type (cstring mem)
  have hst := wordStarts_length_le type (cstring mem) 0 true
  simp only [if_true] at hst
  have hneedW : (separatorCount type (cstring mem) + 1) % UINT32_RANGE =
      separatorCount type (cstring mem) + 1 := Nat.mod_eq_of_lt (by omega)
  have hneedC : ((cstring mem).length + 1) % UINT32_RANGE = (cstring mem).length + 1 :=
    Nat.mod_eq_of_lt hlen
  obtain ⟨hWl, hWr⟩ := resizeArray_room s._words s._wordsMax
    (separatorCount type (cstring mem) + 1) none hw
  obtain ⟨hCl, hCr⟩ := resizeArray_room s._chars s._charsMax
    ((cstring mem).length + 1) NUL hc
  generalize hA : resizeArray s._words s._wordsMax
    (separatorCount type (cstring mem) + 1) none = A at hWl hWr
  generalize hB : resizeArray s._chars s._charsMax ((cstring mem).length + 1) NUL = B at hCl hCr
  have hnot : ¬ UINT32_RANGE ≤ (cstring mem).length := by omega
  have htake : (cstring mem ++ [NUL]).take ((cstring mem).length + 1) = cstring mem ++ [NUL] := by
    have : (cstring mem ++ [NUL]).length = (cstring mem).length + 1 := by simp
    rw [← this]
    exact List.take_length _
  have hloop := markLoop_eq type (cstring mem) [] (NUL :: B.1.drop ((cstring mem).length + 1)) []
    (List.replicate (separatorCount type (cstring mem) + 1) none ++
      A.1.drop (separatorCount type (cstring mem) + 1)) true
    { _wordsLen := 0, _wordsMax := A.2,
      _words := List.replicate (separatorCount type (cstring mem) + 1) none ++
        A.1.drop (separatorCount type (cstring mem) + 1),
      _charsLen := (cstring mem).length, _charsMax := B.2,
      _chars := cstring mem ++ [NUL] ++ B.1.drop ((cstring mem).length + 1) }
    (by simp) (by simp) rfl
    (by simp only [List.length_nil, List.length_append, List.length_replicate]; omega)
    (by simp only [List.length_nil]; omega)
  simp only [List.length_nil, List.nil_append, Nat.zero_add] at hloop
  refine ⟨List.drop (wordStarts type (cstring mem) 0 true).length
      (List.replicate (separatorCount type (cstring mem) + 1) none ++
        A.1.drop (separatorCount type (cstring mem) + 1)),
    B.1.drop ((cstring mem).length + 1), ?_, ?_⟩
  · simp only [splitToWords.split, countLoop_eq, Nat.zero_add, hnot, if_false, hneedW, hneedC,
      hA, hB, take_cstring, htake, hloop]
    congr 2
    · simp only [List.length_append, List.length_map, List.length_drop, List.length_replicate]
      omega
    · simp only [List.length_append, List.length_cons, List.length_drop, nulOut,
        List.length_map]
      omega
  · simp only [List.length_append, List.length_map, List.length_drop, List.length_replicate]
    omega

/-- The pointer `first(k)` returns when the first words of the array are
known. -/
theorem first_of_stored (n wmax clen cmax : Nat) (ptrs rest : List (Option Nat))
    (chars : List Char) (k : Nat) (hk : k < n) (hn : n = ptrs.length) :
    splitToWords.first
        { _wordsLen := n, _wordsMax := wmax, _words := ptrs ++ rest, _charsLen := clen,
          _charsMax := cmax, _chars := chars } k = .ok (ptrs.getD k none) := by
  have hk1 : k < ptrs.length := by omega
  have hk2 : k < (ptrs ++ rest).length := by
    rw [List.length_append]
    omega
  have hnot : ¬ n ≤ k := by omega
  simp only [splitToWords.first, hnot, if_false, hk2, dite_true]
  rw [List.getElem_append_left hk1]
  simp [List.getD_eq_getElem?_getD, List.getElem?_eq_getElem hk1]

/-- The method `isSeparator` answers true exactly on the listed separators. -/
theorem isSeparator_eq_listed (type : splitType) (c : Char) :
    splitToWords.isSeparator c type = listedSeparator type c := by
  have h1 : (splitType.splitWords == splitType.splitPaths) = false := by decide
  have h2 : (splitType.splitPaths == splitType.splitWords) = false := by decide
  rw [Bool.eq_iff_iff]
  cases type <;>
    simp [splitToWords.isSeparator, splitToWords.isSpace, splitToWords.isPath, listedSeparator,
      h1, h2, or_assoc]

theorem isSeparator_fun_eq_listed (type : splitType) :
    (fun c => splitToWords.isSeparator c type) = listedSeparator type := by
  funext c
  exact isSeparator_eq_listed type c

theorem cstring_eq_self (l : List Char) (hn : ∀ c ∈ l, c ≠ NUL) : cstring l = l := by
  unfold cstring
  rw [List.takeWhile_eq_self_iff]
  intro c hc
  simpa using hn c hc

/-- Inside a word the second loop passes characters that are no separators
without touching the state. -/
theorem markLoop_inside_word (type : splitType) (cs : List Char) :
    ∀ (ii : Nat) (s : splitToWords), (∀ c ∈ cs, splitToWords.isSeparator c type = false) →
      splitToWords.markLoop type cs ii false s = .ok s := by
  induction cs with
  | nil =>
    intro ii s _
    rfl
  | cons c cs ih =>
    intro ii s hs
    have hc : splitToWords.isSeparator c type = false := hs c (List.mem_cons_self c cs)
    simp only [splitToWords.markLoop, hc, Bool.false_eq_true, if_false]
    exact ih (ii + 1) s (fun x hx => hs x (List.mem_cons_of_mem c hx))

/-- A non-empty line without separators is its own single maximal run. -/
theorem maximalRuns_single (sep : Char → Bool) (l : List Char) (hne : l ≠ [])
    (hs : ∀ c ∈ l, sep c = false) : maximalRuns sep l = [l] := by
  cases l with
  | nil => exact absurd rfl hne
  | cons c cs =>
    have hc : sep c = false := hs c (List.mem_cons_self c cs)
    have ht : cs.takeWhile (fun d => !sep d) = cs := by
      rw [List.takeWhile_eq_self_iff]
      intro x hx
      simp [hs x (List.mem_cons_of_mem c hx)]
    have hd : cs.dropWhile (fun d => !sep d) = [] := by
      rw [List.dropWhile_eq_nil_iff]
      intro x hx
      simp [hs x (List.mem_cons_of_mem c hx)]
    rw [maximalRuns_cons]
    simp only [hc, Bool.false_eq_true, if_false, ht, hd, maximalRuns_nil]

theorem separatorCount_zero (type : splitType) (l : List Char)
    (hs : ∀ c ∈ l, splitToWords.isSeparator c type = false) : separatorCount type l = 0 := by
  unfold separatorCount
  rw [List.countP_eq_zero]
  intro c hc
  simp [hs c hc]

/-- A line of `2^32 - 1` characters without separators, split by the tokenizer
that holds the line `b`: `_charsLen + 1` wraps to 0, nothing is copied, and the
one word stored points at the start of the old buffer. -/
theorem split_wrapped_keeps_buffer (line : List Char) (hn : ∀ c ∈ line, c ≠ NUL)
    (hs : ∀ c ∈ line, splitToWords.isSeparator c splitType.splitWords = false)
    (hlen : line.length + 1 = UINT32_RANGE) :
    splitToWords.split
        { _wordsLen := 1, _wordsMax := 1, _words := [some 0], _charsLen := 1, _charsMax := 2,
          _chars := ['b', NUL] } (some line) splitType.splitWords =
      .returns { _wordsLen := 1, _wordsMax := 1, _words := [some 0],
                 _charsLen := line.length, _charsMax := 2, _chars := ['b', NUL] } := by
  have hnot : ¬ UINT32_RANGE ≤ line.length := by omega
  have hwrap : (line.length + 1) % UINT32_RANGE = 0 := by
    rw [hlen]
    exact Nat.mod_self _
  have hone : (0 + 1) % UINT32_RANGE = 1 := by decide
  cases line with
  | nil => simp [UINT32_RANGE] at hlen
  | cons c cs =>
    have hc : splitToWords.isSeparator c splitType.splitWords = false :=
      hs c (List.mem_cons_self c cs)
    have hcs : ∀ x ∈ cs, splitToWords.isSeparator x splitType.splitWords = false :=
      fun x hx => hs x (List.mem_cons_of_mem c hx)
    simp only [splitToWords.split, countLoop_eq, cstring_eq_self _ hn, Nat.zero_add,
      separatorCount_zero _ _ hs, hnot, if_false, hwrap, hone, resizeArray, Nat.le_refl,
      Nat.zero_le, if_true, List.take_length, List.take_zero, List.drop_zero, List.nil_append,
      List.replicate_one, List.drop_one, List.tail_cons, List.append_nil,
      splitToWords.markLoop, hc, Bool.false_eq_true, List.length_singleton, Nat.lt_irrefl,
      Nat.zero_lt_one, List.set_cons_zero, markLoop_inside_word _ cs _ _ hcs]

/-- C16, as stated, fails for a line of 4294967295 characters: the tokenizer
that was built from the line `b` and then splits 4294967295 letters `a`
computes `_charsLen + 1` as 0 in `uint32`, copies nothing, and stores one word
that points at the old buffer; `first(0)` is the C string `b`, while the only
maximal run of the line is the line itself. -/
theorem C16_long_line_gives_word_of_old_buffer :
    splitToWords.new (some ['b']) splitType.splitWords =
        .returns { _wordsLen := 1, _wordsMax := 1, _words := [some 0], _charsLen := 1,
                   _charsMax := 2, _chars := ['b', NUL] } ∧
      splitToWords.split
          { _wordsLen := 1, _wordsMax := 1, _words := [some 0], _charsLen := 1, _charsMax := 2,
            _chars := ['b', NUL] }
          (some (List.replicate 4294967295 'a')) splitType.splitWords =
        .returns { _wordsLen := 1, _wordsMax := 1, _words := [some 0],
                   _charsLen := 4294967295, _charsMax := 2, _chars := ['b', NUL] } ∧
      splitToWords.first
          { _wordsLen := 1, _wordsMax := 1, _words := [some 0], _charsLen := 4294967295,
            _charsMax := 2, _chars := ['b', NUL] } 0 = .ok (some 0) ∧
      splitToWords.wordAt
          { _wordsLen := 1, _wordsMax := 1, _words := [some 0], _charsLen := 4294967295,
            _charsMax := 2, _chars := ['b', NUL] } 0 = ['b'] ∧
      maximalRuns (listedSeparator splitType.splitWords)
          (cstring (List.replicate 4294967295 'a')) = [List.replicate 4294967295 'a'] := by
  have hn : ∀ c ∈ List.replicate 4294967295 'a', c ≠ NUL := by
    intro c hc
    rw [List.eq_of_mem_replicate hc]
    decide
  have hs : ∀ c ∈ List.replicate 4294967295 'a',
      splitToWords.isSeparator c splitType.splitWords = false := by
    intro c hc
    rw [List.eq_of_mem_replicate hc]
    decide
  have hl : ∀ c ∈ List.replicate 4294967295 'a',
      listedSeparator splitType.splitWords c = false := by
    intro c hc
    rw [List.eq_of_mem_replicate hc]
    decide
  have hlen : (List.replicate 4294967295 'a').length + 1 = UINT32_RANGE := by
    rw [List.length_replicate]
    decide
  have hne : List.replicate 4294967295 'a' ≠ [] := by
    intro h
    rw [h] at hlen
    revert hlen
    decide
  have hsplit := split_wrapped_keeps_buffer (List.replicate 4294967295 'a') hn hs hlen
  rw [List.length_replicate] at hsplit
  refine ⟨by decide, hsplit, by decide, by decide, ?_⟩
  rw [cstring_eq_self _ hn]
  exact maximalRuns_single _ _ hne hl

/-- C16, amended: for a tokenizer in any prior state in which its arrays have
their recorded capacities, a split type, and a line whose length plus one is
below `2^32`, `split` returns; `numWords()` is the number of maximal non-empty
runs of characters that are no separators (space, tab, newline, carriage return
for `splitWords`, the slash for `splitPaths`); for every `k < numWords()`,
`first(k)` points at a C string equal to the `k`-th run; and every run is
non-empty and holds no separator. -/
theorem C16_split_gives_maximal_runs (s : splitToWords) (line : List Char) (type : splitType)
    (hwf : s.wellFormed) (hlen : (cstring line).length + 1 < UINT32_RANGE) :
    ∃ s1, s.split (some line) type = .returns s1 ∧
      s1.numWords = (maximalRuns (listedSeparator type) (cstring line)).length ∧
      (∀ k, k < s1.numWords → ∃ off, s1.first k = .ok (some off) ∧
        (maximalRuns (listedSeparator type) (cstring line))[k]? = some (s1.wordAt off)) ∧
      (∀ w ∈ maximalRuns (listedSeparator type) (cstring line),
        w ≠ [] ∧ ∀ c ∈ w, listedSeparator type c = false) := by
  obtain ⟨junkW, junkC, hret, _⟩ := split_returns s line type hwf hlen
  have hruns := (wordStarts_runs type junkC (cstring line) [] (cstring_no_nul line)).1
  simp only [List.length_nil, List.nil_append] at hruns
  rw [isSeparator_fun_eq_listed] at hruns
  refine ⟨_, hret, ?_, ?_, ?_⟩
  · simp only [splitToWords.numWords]
    rw [← hruns, List.length_map]
  · intro k hk
    simp only [splitToWords.numWords] at hk
    refine ⟨(wordStarts type (cstring line) 0 true)[k], ?_, ?_⟩
    · rw [first_of_stored _ _ _ _ _ _ _ k hk (by simp)]
      simp [List.getD_eq_getElem?_getD, List.getElem?_eq_getElem hk]
    · rw [← hruns]
      simp [splitToWords.wordAt, List.getElem?_eq_getElem hk]
  · exact maximalRuns_sound _ _ _ (Nat.le_refl _)

/-- Instance of C16 (amended): the line `a b` split at white space by a fresh
tokenizer. -/
theorem C16_split_gives_maximal_runs_witness :
    ∃ s1, splitToWords.split
        { _wordsLen := 0, _wordsMax := 0, _words := [], _charsLen := 0, _charsMax := 0,
          _chars := [] } (some ['a', ' ', 'b']) splitType.splitWords = .returns s1 ∧
      s1.numWords =
        (maximalRuns (listedSeparator splitType.splitWords) (cstring ['a', ' ', 'b'])).length ∧
      (∀ k, k < s1.numWords → ∃ off, s1.first k = .ok (some off) ∧
        (maximalRuns (listedSeparator splitType.splitWords) (cstring ['a', ' ', 'b']))[k]? =
          some (s1.wordAt off)) ∧
      (∀ w ∈ maximalRuns (listedSeparator splitType.splitWords) (cstring ['a', ' ', 'b']),
        w ≠ [] ∧ ∀ c ∈ w, listedSeparator splitType.splitWords c = false) :=
  C16_split_gives_maximal_runs
    { _wordsLen := 0, _wordsMax := 0, _words := [], _charsLen := 0, _charsMax := 0,
      _chars := [] } ['a', ' ', 'b'] splitType.splitWords ⟨rfl, rfl⟩ (by decide)

/-- The loop of `shift` carries the word in front of `B` past `k` words. -/
theorem shiftLoop_eq (k : Nat) :
    ∀ (A : List (Option Nat)) (x : Option Nat) (B : List (Option Nat)), k ≤ B.length →
      splitToWords.shiftLoop k (A.length + 1) (A ++ x :: B) =
        .ok (A ++ B.take k ++ x :: B.drop k) := by
  induction k with
  | zero =>
    intro A x B _
    simp [splitToWords.shiftLoop]
  | succ k ih =>
    intro A x B hk
    cases B with
    | nil => simp at hk
    | cons y B1 =>
      have hk1 : k ≤ B1.length := by simpa using hk
      have hlt : A.length + 1 < (A ++ x :: y :: B1).length := by simp
      have hswap : ((A ++ x :: y :: B1).set (A.length + 1 - 1) ((A ++ x :: y :: B1)[A.length + 1])).set
          (A.length + 1) ((A ++ x :: y :: B1)[A.length + 1 - 1]) = (A ++ [y]) ++ x :: B1 := by
        have e1 : (A ++ x :: y :: B1)[A.length + 1] = y := by
          rw [List.getElem_append_right (by omega)]
          simp
        have e0 : (A ++ x :: y :: B1)[A.length + 1 - 1] = x := by
          rw [List.getElem_append_right (by omega)]
          simp
        rw [e1, e0]
        simp only [Nat.add_sub_cancel]
        rw [set_append_cons A x y (y :: B1)]
        have e2 : A ++ y :: y :: B1 = (A ++ [y]) ++ y :: B1 := by simp
        have e3 : A.length + 1 = (A ++ [y]).length := by simp
        rw [e2, e3, set_append_cons (A ++ [y]) y x B1]
      have h := ih (A ++ [y]) x B1 hk1
      have hlen : (A ++ [y]).length = A.length + 1 := by simp
      rw [hlen] at h
      simp only [splitToWords.shiftLoop, hlt, dite_true, hswap, h]
      simp

/-- C18: for a tokenizer whose `n` words lie inside its word array, with `n`
zero `shift()` and `pop()` return null and leave the state as it is; with `n`
at least 1, `shift()` returns the word `first(0)` and leaves `n - 1` words,
the `i`-th being the former `first(i + 1)`, and `pop()` returns the word
`first(n - 1)` and leaves `n - 1` words, the `i`-th being the former
`first(i)`. -/
theorem C18_shift_and_pop (s : splitToWords) (hcap : s._wordsLen ≤ s._words.length) :
    (s._wordsLen = 0 → s.shift = .ok (none, s) ∧ s.pop = .ok (none, s)) ∧
      (0 < s._wordsLen →
        (∃ w0 s1, s.first 0 = .ok w0 ∧ s.shift = .ok (w0, s1) ∧
          s1.numWords = s.numWords - 1 ∧
          ∀ i, i < s.numWords - 1 → s1.first i = s.first (i + 1)) ∧
        (∃ wl s2, s.first (s.numWords - 1) = .ok wl ∧ s.pop = .ok (wl, s2) ∧
          s2.numWords = s.numWords - 1 ∧
          ∀ i, i < s.numWords - 1 → s2.first i = s.first i)) := by
  refine ⟨?_, ?_⟩
  · intro h0
    simp [splitToWords.shift, splitToWords.pop, h0]
  · intro hpos
    obtain ⟨n, ws, wm, cl, cm, cs⟩ := s
    simp only [splitToWords.numWords] at *
    refine ⟨?_, ?_⟩
    · cases wm with
      | nil => simp at hcap; omega
      | cons x B =>
        have hB : n - 1 ≤ B.length := by
          simp only [List.length_cons] at hcap
          omega
        have hloop := shiftLoop_eq (n - 1) [] x B hB
        simp only [List.length_nil, List.nil_append, Nat.zero_add] at hloop
        have hne : ¬ n = 0 := by omega
        have hidx : n - 1 < (List.take (n - 1) B ++ x :: List.drop (n - 1) B).length := by
          simp only [List.length_append, List.length_take, List.length_cons, List.length_drop]
          omega
        have hget : (List.take (n - 1) B ++ x :: List.drop (n - 1) B)[n - 1] = x := by
          rw [List.getElem_append_right (by simp)]
          simp [Nat.min_eq_left hB]
        refine ⟨x, { _wordsLen := n - 1, _wordsMax := ws,
                     _words := List.take (n - 1) B ++ x :: List.drop (n - 1) B,
                     _charsLen := cl, _charsMax := cm, _chars := cs }, ?_, ?_, rfl, ?_⟩
        · have hnle : ¬ n ≤ 0 := by omega
          simp [splitToWords.first, hnle]
        · simp only [splitToWords.shift, hne, if_false, hloop, hidx, dite_true, hget]
        · intro i hi
          have h1 : ¬ n - 1 ≤ i := by omega
          have h2 : ¬ n ≤ i + 1 := by omega
          have h3 : i < (List.take (n - 1) B ++ x :: List.drop (n - 1) B).length := by omega
          have h4 : i + 1 < (x :: B).length := by
            simp only [List.length_cons]
            omega
          have h5 : i < (List.take (n - 1) B).length := by
            simp only [List.length_take]
            omega
          simp only [splitToWords.first, h1, h2, if_false, h3, h4, dite_true]
          rw [List.getElem_append_left h5]
          simp
    · have hne : ¬ n = 0 := by omega
      have hidx : n - 1 < wm.length := by omega
      have hnle : ¬ n ≤ n - 1 := by omega
      refine ⟨wm[n - 1], ⟨n - 1, ws, wm, cl, cm, cs⟩, ?_, ?_, rfl, ?_⟩
      · simp only [splitToWords.first, hnle, if_false, hidx, dite_true]
      · simp only [splitToWords.pop, hne, if_false, hidx, dite_true]
      · intro i hi
        have h1 : ¬ n - 1 ≤ i := by omega
        have h2 : ¬ n ≤ i := by omega
        simp only [splitToWords.first, h1, h2, if_false]

/-- Instance of C18: the three words of the line `a b c`. -/
theorem C18_shift_and_pop_witness :
    splitToWords.shift
        { _wordsLen := 3, _wordsMax := 3, _words := [some 0, some 2, some 4], _charsLen := 5,
          _charsMax := 6, _chars := ['a', NUL, 'b', NUL, 'c', NUL] } =
      .ok (some 0,
        { _wordsLen := 2, _wordsMax := 3, _words := [some 2, some 4, some 0], _charsLen := 5,
          _charsMax := 6, _chars := ['a', NUL, 'b', NUL, 'c', NUL] }) ∧
      (0 < 3 →
        (∃ w0 s1,
          splitToWords.first
              { _wordsLen := 3, _wordsMax := 3, _words := [some 0, some 2, some 4],
                _charsLen := 5, _charsMax := 6, _chars := ['a', NUL, 'b', NUL, 'c', NUL] } 0 =
            .ok w0 ∧
          splitToWords.shift
              { _wordsLen := 3, _wordsMax := 3, _words := [some 0, some 2, some 4],
                _charsLen := 5, _charsMax := 6, _chars := ['a', NUL, 'b', NUL, 'c', NUL] } =
            .ok (w0, s1) ∧
          s1.numWords = 3 - 1 ∧
          ∀ i, i < 3 - 1 → s1.first i =
            splitToWords.first
              { _wordsLen := 3, _wordsMax := 3, _words := [some 0, some 2, some 4],
                _charsLen := 5, _charsMax := 6, _chars := ['a', NUL, 'b', NUL, 'c', NUL] }
              (i + 1)) ∧
        (∃ wl s2,
          splitToWords.first
              { _wordsLen := 3, _wordsMax := 3, _words := [some 0, some 2, some 4],
                _charsLen := 5, _charsMax := 6, _chars := ['a', NUL, 'b', NUL, 'c', NUL] }
              (3 - 1) = .ok wl ∧
          splitToWords.pop
              { _wordsLen := 3, _wordsMax := 3, _words := [some 0, some 2, some 4],
                _charsLen := 5, _charsMax := 6, _chars := ['a', NUL, 'b', NUL, 'c', NUL] } =
            .ok (wl, s2) ∧
          s2.numWords = 3 - 1 ∧
          ∀ i, i < 3 - 1 → s2.first i =
            splitToWords.first
              { _wordsLen := 3, _wordsMax := 3, _words := [some 0, some 2, some 4],
                _charsLen := 5, _charsMax := 6, _chars := ['a', NUL, 'b', NUL, 'c', NUL] } i)) :=
  ⟨by decide,
    (C18_shift_and_pop
      { _wordsLen := 3, _wordsMax := 3, _words := [some 0, some 2, some 4], _charsLen := 5,
        _charsMax := 6, _chars := ['a', NUL, 'b', NUL, 'c', NUL] } (by decide)).2⟩

/-- C19 at its failing input: the tokenizer built from the line `a` holds one
word; `first(1)` returns null, but `last(1)` computes the index `1 - 1 - 1` in
`uint32`, that is 4294967295, and reads the word array there, outside its one
entry. -/
theorem C19_last_reads_outside_the_words :
    splitToWords.new (some ['a']) splitType.splitWords =
        .returns { _wordsLen := 1, _wordsMax := 1, _words := [some 0], _charsLen := 1,
                   _charsMax := 2, _chars := ['a', NUL] } ∧
      splitToWords.first
          { _wordsLen := 1, _wordsMax := 1, _words := [some 0], _charsLen := 1,
            _charsMax := 2, _chars := ['a', NUL] } 1 = .ok none ∧
      (1 + UINT32_RANGE - 1 - 1 % UINT32_RANGE) % UINT32_RANGE = 4294967295 ∧
      splitToWords.last
          { _wordsLen := 1, _wordsMax := 1, _words := [some 0], _charsLen := 1,
            _charsMax := 2, _chars := ['a', NUL] } 1 = .error .outOfBounds := by
  decide

end Canu
